import Mathlib

/-!
Verification of the chess engine (`models.py`, `ai.py`, `pieces.py`).

This file gives a shallow embedding of the engine's data model and
operations in Lean, and proves (or refutes) the specification claims
about it.  The coordinate system is the source's: a square is a pair
`(column, row)` of integers, `(0, 0)` being the a1 corner, and the grid
is a list of 8 columns, each a list of 8 optional pieces, indexed
`grid[col][row]`.  Scores of the search are integers extended with the
two infinities, modelled by `WithBot (WithTop Int)`.
-/

/-- The two piece colors (`PieceColor` in the source). -/
inductive PieceColor where
  | white
  | black
deriving DecidableEq, Repr

/-- `PieceColor.opposite` from `enums.py` (also inlined in `models.py`). -/
def PieceColor.opposite : PieceColor → PieceColor
  | .white => .black
  | .black => .white

/-- The six piece kinds (the `Piece` subclasses of the source). -/
inductive PieceKind where
  | pawn
  | rook
  | knight
  | bishop
  | queen
  | king
deriving DecidableEq, Repr

/-- A piece: its kind (the subclass), its color, and its mutable stored
position `(col, row)` (`self.position`).  The source also stores the
symbol character, which is a pure function of kind and color (set once
in each subclass constructor), so it is computed here instead. -/
structure Piece where
  kind : PieceKind
  color : PieceColor
  pos : Int × Int
deriving DecidableEq, Repr

/-- The symbol character of a piece, as assigned by the subclass
constructors (uppercase for white, lowercase for black). -/
def Piece.symbol (p : Piece) : Char :=
  match p.kind, p.color with
  | .pawn, .white => 'P'
  | .pawn, .black => 'p'
  | .rook, .white => 'R'
  | .rook, .black => 'r'
  | .knight, .white => 'N'
  | .knight, .black => 'n'
  | .bishop, .white => 'B'
  | .bishop, .black => 'b'
  | .queen, .white => 'Q'
  | .queen, .black => 'q'
  | .king, .white => 'K'
  | .king, .black => 'k'

/-- The 8×8 grid: a list of 8 columns, each a list of 8 cells,
`grid[col][row]` (as in `Board.grid`). -/
abbrev Grid := List (List (Option Piece))

/-- The `0 <= · <= 7` bounds check that guards every grid access. -/
def inR (x y : Int) : Prop := 0 ≤ x ∧ x ≤ 7 ∧ 0 ≤ y ∧ y ≤ 7

instance (x y : Int) : Decidable (inR x y) := by unfold inR; infer_instance

/-- Read `grid[x][y]`.  All grid reads in the source are either guarded
by `0 <= · <= 7` bounds checks or performed at coordinates that are in
range, so out-of-range reads are modelled as empty. -/
def gget (g : Grid) (x y : Int) : Option Piece :=
  if inR x y then
    match g[x.toNat]? with
    | some col => col[y.toNat]?.getD none
    | none => none
  else none

/-- Write `grid[x][y] = p` (a no-op out of range, which never happens in
the modelled code paths). -/
def gset (g : Grid) (x y : Int) (p : Option Piece) : Grid :=
  if inR x y then
    match g[x.toNat]? with
    | some col => g.set x.toNat (col.set y.toNat p)
    | none => g
  else g

/-- A move: `((start_col, start_row), (end_col, end_row))`. -/
abbrev Move := (Int × Int) × (Int × Int)

/-- `Pawn.get_moves` (`models.py`): forward one square if empty, two
from the starting rank if both squares are empty, diagonal captures
onto enemy-occupied squares, in the source's append order. -/
def pawnMoves (p : Piece) (g : Grid) : List (Int × Int) :=
  let x := p.pos.1
  let y := p.pos.2
  let direction : Int := if p.color = .white then 1 else -1
  let startRow : Int := if p.color = .white then 1 else 6
  let forward :=
    if 0 ≤ y + direction ∧ y + direction ≤ 7 ∧ gget g x (y + direction) = none then
      if y = startRow ∧ gget g x (y + 2 * direction) = none then
        [(x, y + direction), (x, y + 2 * direction)]
      else [(x, y + direction)]
    else []
  let captures := ([-1, 1] : List Int).filterMap fun dx =>
    if inR (x + dx) (y + direction) then
      match gget g (x + dx) (y + direction) with
      | some t => if t.color ≠ p.color then some (x + dx, y + direction) else none
      | none => none
    else none
  forward ++ captures

/-- One sliding ray of `Rook.get_moves` / `Bishop.get_moves`: squares
`(x + i*dx, y + i*dy)` for `i = 1, 2, ...` until the board edge or the
first occupant (an enemy occupant is included as a capture).  `fuel`
counts the remaining iterations of the source's `for i in range(1, 8)`
loop and `i` is the current step index. -/
def rayWalk (g : Grid) (c : PieceColor) (x y dx dy : Int) : Nat → Int → List (Int × Int)
  | 0, _ => []
  | fuel + 1, i =>
    let nx := x + i * dx
    let ny := y + i * dy
    if inR nx ny then
      match gget g nx ny with
      | some t => if t.color ≠ c then [(nx, ny)] else []
      | none => (nx, ny) :: rayWalk g c x y dx dy fuel (i + 1)
    else []

/-- The rook's ray directions, in source order. -/
def rookDirs : List (Int × Int) := [(0, 1), (0, -1), (1, 0), (-1, 0)]

/-- `Rook.get_moves`: the four orthogonal rays, in source order. -/
def rookMoves (p : Piece) (g : Grid) : List (Int × Int) :=
  rookDirs.flatMap fun d => rayWalk g p.color p.pos.1 p.pos.2 d.1 d.2 7 1

/-- The bishop's ray directions, in source order. -/
def bishopDirs : List (Int × Int) := [(1, 1), (1, -1), (-1, 1), (-1, -1)]

/-- `Bishop.get_moves`: the four diagonal rays, in source order. -/
def bishopMoves (p : Piece) (g : Grid) : List (Int × Int) :=
  bishopDirs.flatMap fun d => rayWalk g p.color p.pos.1 p.pos.2 d.1 d.2 7 1

/-- `Knight.get_moves`: the eight fixed offsets, in source order,
excluding own-occupied destinations. -/
def knightMoves (p : Piece) (g : Grid) : List (Int × Int) :=
  let x := p.pos.1
  let y := p.pos.2
  ([(x + 1, y + 2), (x - 1, y + 2), (x + 1, y - 2), (x - 1, y - 2),
    (x + 2, y + 1), (x - 2, y + 1), (x + 2, y - 1), (x - 2, y - 1)] :
      List (Int × Int)).filterMap fun m =>
    if inR m.1 m.2 then
      match gget g m.1 m.2 with
      | some t => if t.color ≠ p.color then some m else none
      | none => some m
    else none

/-- `King.get_moves`: the eight adjacent squares (dx, dy loops in
source order, skipping (0,0)), excluding own-occupied destinations. -/
def kingMoves (p : Piece) (g : Grid) : List (Int × Int) :=
  let x := p.pos.1
  let y := p.pos.2
  (([-1, 0, 1] : List Int).flatMap fun dx =>
    ([-1, 0, 1] : List Int).filterMap fun dy =>
      if dx = 0 ∧ dy = 0 then none
      else
        let nx := x + dx
        let ny := y + dy
        if inR nx ny then
          match gget g nx ny with
          | some t => if t.color ≠ p.color then some (nx, ny) else none
          | none => some (nx, ny)
        else none)

/-- `Piece.get_moves` dispatch: the pseudo-legal destinations of a
piece (`Queen.get_moves` is rook moves followed by bishop moves). -/
def getMoves (p : Piece) (g : Grid) : List (Int × Int) :=
  match p.kind with
  | .pawn => pawnMoves p g
  | .rook => rookMoves p g
  | .knight => knightMoves p g
  | .bishop => bishopMoves p g
  | .queen => rookMoves p g ++ bishopMoves p g
  | .king => kingMoves p g

/-- The knight offsets tested by `is_square_attacked_by`, in source
order. -/
def knightOffsets : List (Int × Int) :=
  [(1, 2), (-1, 2), (1, -2), (-1, -2), (2, 1), (-2, 1), (2, -1), (-2, -1)]

/-- The eight scan directions of `is_square_attacked_by`, in source
order: 4 diagonal, then 4 orthogonal. -/
def scanDirs : List (Int × Int) :=
  [(1, 1), (1, -1), (-1, 1), (-1, -1), (0, 1), (0, -1), (1, 0), (-1, 0)]

/-- The ray part of `Board.is_square_attacked_by`: walk one direction
from the target square, stop at the first occupant, and report whether
that occupant is an attacking slider (any distance) or king (distance
1 only).  Diagonal rays hit bishops/queens, orthogonal rays hit
rooks/queens, exactly as the source tests membership of `(dx, dy)` in
the diagonal list. -/
def attackRay (g : Grid) (c : PieceColor) (tx ty dx dy : Int) : Nat → Int → Bool
  | 0, _ => false
  | fuel + 1, i =>
    let sx := tx + i * dx
    let sy := ty + i * dy
    if inR sx sy then
      match gget g sx sy with
      | some piece =>
        if piece.color = c then
          if (dx, dy) ∈ ([(1, 1), (1, -1), (-1, 1), (-1, -1)] : List (Int × Int)) then
            (piece.kind = .bishop ∨ piece.kind = .queen) ∨ (i = 1 ∧ piece.kind = .king)
          else
            (piece.kind = .rook ∨ piece.kind = .queen) ∨ (i = 1 ∧ piece.kind = .king)
        else false
      | none => attackRay g c tx ty dx dy fuel (i + 1)
    else false

/-- `Board.is_square_attacked_by`: the special-cased scan — diagonal
pawn attackers, fixed knight offsets, then the eight rays. -/
def isSquareAttackedBy (g : Grid) (pos : Int × Int) (c : PieceColor) : Bool :=
  let tx := pos.1
  let ty := pos.2
  let pawnDirection : Int := if c = .white then -1 else 1
  let pawnHit := ([-1, 1] : List Int).any fun dx =>
    let px := tx + dx
    let py := ty + pawnDirection
    if inR px py then
      match gget g px py with
      | some piece => piece.kind = .pawn ∧ piece.color = c
      | none => false
    else false
  let knightHit :=
    knightOffsets.any fun d =>
      let nx := tx + d.1
      let ny := ty + d.2
      if inR nx ny then
        match gget g nx ny with
        | some piece => piece.kind = .knight ∧ piece.color = c
        | none => false
      else false
  let rayHit :=
    scanDirs.any fun d =>
      attackRay g c tx ty d.1 d.2 7 1
  pawnHit || knightHit || rayHit

/-- The board-scan index list `range(8)` (Python ints). -/
def range8 : List Int := [0, 1, 2, 3, 4, 5, 6, 7]

/-- The king-locating scan of `Board.is_check`: fold over columns then
rows, remembering the last-seen king position of each color. -/
def findKings (g : Grid) : Option (Int × Int) × Option (Int × Int) :=
  range8.foldl (fun acc col =>
    range8.foldl (fun acc2 row =>
      match gget g col row with
      | some piece =>
        if piece.kind = .king then
          if piece.color = .white then (some (col, row), acc2.2)
          else (acc2.1, some (col, row))
        else acc2
      | none => acc2) acc) (none, none)

/-- `Board.is_check`: the color of a king under attack, white tested
first, or `none`. -/
def isCheck (g : Grid) : Option PieceColor :=
  let kings := findKings g
  match kings.1 with
  | some wp => if isSquareAttackedBy g wp .black then some .white else
      match kings.2 with
      | some bp => if isSquareAttackedBy g bp .white then some .black else none
      | none => none
  | none =>
      match kings.2 with
      | some bp => if isSquareAttackedBy g bp .white then some .black else none
      | none => none

/-- `Board.is_color_in_check`: scan for a king of the color (the source
keeps scanning past unattacked kings, so this is an `any`). -/
def isColorInCheck (g : Grid) (c : PieceColor) : Bool :=
  range8.any fun col =>
    range8.any fun row =>
      match gget g col row with
      | some piece =>
        piece.kind = .king ∧ piece.color = c ∧
          isSquareAttackedBy g (col, row) c.opposite
      | none => false

/-- The speculative application of a move shared by `move_piece`,
`has_legal_move`, `get_all_legal_moves`, `get_possible_moves` and
`minmax`: place the piece (with its position field updated) at the
destination, then clear the origin. -/
def simGrid (g : Grid) (p : Piece) (s e : Int × Int) : Grid :=
  gset (gset g e.1 e.2 (some { p with pos := e })) s.1 s.2 none

/-- `Board.has_legal_move`: some piece of the color has a pseudo-legal
move whose speculative application leaves its own king out of check.
Each simulation is run against the original grid, which matches the
source because every speculative mutation is exactly reverted before
the next candidate (proved below as `getAllLegalMovesT_eq`). -/
def hasLegalMove (g : Grid) (c : PieceColor) : Bool :=
  range8.any fun col =>
    range8.any fun row =>
      match gget g col row with
      | some piece =>
        piece.color = c ∧
          (getMoves piece g).any fun e =>
            ¬ isColorInCheck (simGrid g piece (col, row) e) c
      | none => false

/-- `Board.is_checkmate`: in check and no legal move. -/
def isCheckmate (g : Grid) (c : PieceColor) : Bool :=
  isColorInCheck g c && !hasLegalMove g c

/-- One square's contribution to `get_all_legal_moves`: the moves of a
piece of the right color on that square whose speculative application
leaves the mover's king out of check. -/
def legalContrib (g : Grid) (c : PieceColor) (col row : Int) : List Move :=
  match gget g col row with
  | some piece =>
    if piece.color = c then
      (getMoves piece g).filterMap fun e =>
        if ¬ isColorInCheck (simGrid g piece (col, row) e) c then
          some ((col, row), e)
        else none
    else []
  | none => []

/-- `Board.get_all_legal_moves`, value part: board-scan order over
columns then rows, keeping the pseudo-legal moves whose speculative
application leaves the mover's king out of check. -/
def getAllLegalMoves (g : Grid) (c : PieceColor) : List Move :=
  range8.flatMap fun col => range8.flatMap fun row => legalContrib g c col row

/-- The revert of a speculative move: put the moved piece (with its
position field restored) back at the origin and the captured occupant
back at the destination. -/
def revertGrid (g : Grid) (p : Piece) (s e : Int × Int) (captured : Option Piece) : Grid :=
  gset (gset g s.1 s.2 (some p)) e.1 e.2 captured

/-- The inner loop of `Board.get_all_legal_moves` with the in-place
mutate/revert discipline made explicit: the grid is threaded through
each speculate/test/revert step. -/
def legalMovesInner (c : PieceColor) (p : Piece) (s : Int × Int) :
    List (Int × Int) → Grid → List Move → List Move × Grid
  | [], g, acc => (acc, g)
  | e :: rest, g, acc =>
    let captured := gget g e.1 e.2
    let g1 := simGrid g p s e
    let acc' := if ¬ isColorInCheck g1 c then acc ++ [(s, e)] else acc
    let g2 := revertGrid g1 p s e captured
    legalMovesInner c p s rest g2 acc'

/-- `Board.get_all_legal_moves` with the grid threaded through every
speculative mutation and revert, exactly as the source mutates the one
shared grid in place. -/
def getAllLegalMovesT (g : Grid) (c : PieceColor) : List Move × Grid :=
  range8.foldl (fun st col =>
    range8.foldl (fun st2 row =>
      match gget st2.2 col row with
      | some piece =>
        if piece.color = c then
          let (acc', g') := legalMovesInner c piece (col, row)
            (getMoves piece st2.2) st2.2 st2.1
          (acc', g')
        else st2
      | none => st2) st) ([], g)

/-- `Piece.pos_to_algebraic`: file letter then rank digit. -/
def posToAlgebraic (pos : Int × Int) : List Char :=
  [Char.ofNat (pos.1.toNat + 97)] ++ (toString (pos.2 + 1)).data

/-- The first character of the color's string value (`turn.value[0]`). -/
def colorChar : PieceColor → Char
  | .white => 'w'
  | .black => 'b'

/-- The run-length encoding loop of `Board.get_position_hash` over one
rank: `k` is the running `empty_count`, flushed as its decimal digits
before each piece symbol and at the end of the rank. -/
def rleRow : List (Option Char) → Nat → List Char
  | [], 0 => []
  | [], k + 1 => Nat.toDigits 10 (k + 1)
  | none :: rest, k => rleRow rest (k + 1)
  | some ch :: rest, 0 => ch :: rleRow rest 0
  | some ch :: rest, k + 1 => Nat.toDigits 10 (k + 1) ++ (ch :: rleRow rest 0)

/-- The symbols of one rank, read column 0 to 7 as the source's inner
loop does. -/
def rowSyms (g : Grid) (row : Int) : List (Option Char) :=
  range8.map fun col => (gget g col row).map Piece.symbol

/-- `Board.get_position_hash`: ranks 7 down to 0, each run-length
encoded, joined with `/`, then a space and the side-to-move tag. -/
def getPositionHash (g : Grid) (turn : PieceColor) : List Char :=
  List.intercalate ['/'] (range8.reverse.map fun row => rleRow (rowSyms g row) 0)
    ++ [' ', colorChar turn]

/-- Lookup in the position-history dict (`dict.get(key, 0)`). -/
def dictGet (h : List (List Char × Nat)) (k : List Char) : Nat :=
  match h with
  | [] => 0
  | (k', v) :: t => if k' = k then v else dictGet t k

/-- `position_history[h] = position_history.get(h, 0) + 1`: update the
existing entry in place, or append a new one (Python dict semantics). -/
def dictIncr (h : List (List Char × Nat)) (k : List Char) : List (List Char × Nat) :=
  match h with
  | [] => [(k, 1)]
  | (k', v) :: t => if k' = k then (k', v + 1) :: t else (k', v) :: dictIncr t k

/-- `Board`: the grid, the move log (pairs of algebraic strings), and
the repetition history (fingerprint → occurrence count). -/
structure Board where
  grid : Grid
  moveHistory : List (List Char × List Char)
  position_history : List (List Char × Nat)
deriving DecidableEq, Repr

/-- `Board.record_position`. -/
def recordPosition (b : Board) (turn : PieceColor) : Board :=
  { b with position_history := dictIncr b.position_history (getPositionHash b.grid turn) }

/-- `Board.move_piece`: reject if no piece at the origin or the
destination is not pseudo-legal; otherwise apply speculatively, revert
and reject if the mover's own king is now in check, else keep the new
grid and append the move to the log. -/
def movePiece (b : Board) (cur new : Int × Int) : Bool × Board :=
  match gget b.grid cur.1 cur.2 with
  | none => (false, b)
  | some piece =>
    if new ∉ getMoves piece b.grid then (false, b)
    else
      let captured := gget b.grid new.1 new.2
      let g1 := simGrid b.grid piece cur new
      if isColorInCheck g1 piece.color then
        (false, { b with grid := revertGrid g1 piece cur new captured })
      else
        let b' := { b with grid := g1 }
        (true, { b' with moveHistory := b.moveHistory ++ [(posToAlgebraic cur, posToAlgebraic new)] })

/-- The standard 32-piece setup (`Board.setup_board`), written as the
source's sequence of slot assignments on an empty grid. -/
def setupGrid : Grid :=
  let e : Grid := List.replicate 8 (List.replicate 8 none)
  let g := range8.foldl (fun g i =>
    gset (gset g i 1 (some ⟨.pawn, .white, (i, 1)⟩))
      i 6 (some ⟨.pawn, .black, (i, 6)⟩)) e
  let g := gset g 0 0 (some ⟨.rook, .white, (0, 0)⟩)
  let g := gset g 7 0 (some ⟨.rook, .white, (7, 0)⟩)
  let g := gset g 0 7 (some ⟨.rook, .black, (0, 7)⟩)
  let g := gset g 7 7 (some ⟨.rook, .black, (7, 7)⟩)
  let g := gset g 1 0 (some ⟨.knight, .white, (1, 0)⟩)
  let g := gset g 6 0 (some ⟨.knight, .white, (6, 0)⟩)
  let g := gset g 1 7 (some ⟨.knight, .black, (1, 7)⟩)
  let g := gset g 6 7 (some ⟨.knight, .black, (6, 7)⟩)
  let g := gset g 2 0 (some ⟨.bishop, .white, (2, 0)⟩)
  let g := gset g 5 0 (some ⟨.bishop, .white, (5, 0)⟩)
  let g := gset g 2 7 (some ⟨.bishop, .black, (2, 7)⟩)
  let g := gset g 5 7 (some ⟨.bishop, .black, (5, 7)⟩)
  let g := gset g 3 0 (some ⟨.queen, .white, (3, 0)⟩)
  let g := gset g 3 7 (some ⟨.queen, .black, (3, 7)⟩)
  let g := gset g 4 7 (some ⟨.king, .black, (4, 7)⟩)
  gset g 4 0 (some ⟨.king, .white, (4, 0)⟩)

/-- A fresh `Board()`: standard setup, empty log, and the initial
position recorded for white. -/
def initialBoard : Board :=
  recordPosition { grid := setupGrid, moveHistory := [], position_history := [] } .white

/-- Game statuses as the source's strings. -/
def statusActive : List Char := "active".data

/-- The `"checkmate"` status string. -/
def statusCheckmate : List Char := "checkmate".data

/-- The `"not_started"` status string. -/
def statusNotStarted : List Char := "not_started".data

/-- `Game`: board, turn, status string and winner (the player-name,
difficulty and AI fields play no role in the modelled operations). -/
structure Game where
  board : Board
  turn : PieceColor
  game_status : List Char
  winner : Option PieceColor
deriving DecidableEq, Repr

/-- `Game.check_game_end_conditions`: only `checkmate` is ever set;
every other outcome (including stalemate) falls through to `active`. -/
def checkGameEndConditions (gm : Game) : Game :=
  match isCheck gm.board.grid with
  | some checkedColor =>
    if isCheckmate gm.board.grid checkedColor then
      { gm with game_status := statusCheckmate, winner := some checkedColor.opposite }
    else { gm with game_status := statusActive }
  | none => { gm with game_status := statusActive }

/-- `Game.make_move`: reject if not active, no piece at the origin, or
wrong color; delegate to `move_piece`; on success run the end-condition
check, and if still active flip the turn and record the new position.
The human-readable messages are modelled as fixed tags. -/
def makeMove (gm : Game) (cur new : Int × Int) : (Bool × List Char) × Game :=
  if gm.game_status ≠ statusActive then ((false, "not_active".data), gm)
  else
    match gget gm.board.grid cur.1 cur.2 with
    | none => ((false, "no_piece".data), gm)
    | some piece =>
      if piece.color ≠ gm.turn then ((false, "wrong_turn".data), gm)
      else
        let (ok, b') := movePiece gm.board cur new
        if ok = false then
          if isColorInCheck b'.grid gm.turn then
            ((false, "self_check".data), { gm with board := b' })
          else ((false, "invalid_move".data), { gm with board := b' })
        else
          let gm1 := checkGameEndConditions { gm with board := b' }
          if gm1.game_status = statusActive then
            let turn' := gm1.turn.opposite
            ((true, "move_successful".data),
              { gm1 with turn := turn', board := recordPosition gm1.board turn' })
          else ((true, "move_successful".data), gm1)

/-- A freshly started game (`Game.start_game`): new board, white to
move, active. -/
def startGame : Game :=
  { board := initialBoard, turn := .white, game_status := statusActive, winner := none }

/-- Search scores: integers extended with `float("-inf")` (`⊥`) and
`float("inf")` (`⊤`). -/
abbrev Score := WithBot (WithTop Int)

/-- A finite score. -/
def ofInt (n : Int) : Score := ((n : WithTop Int) : Score)

/-- `PIECE_VALUES`, keyed by kind instead of by upper-cased symbol. -/
def pieceValue : PieceKind → Int
  | .pawn => 100
  | .knight => 320
  | .bishop => 330
  | .rook => 500
  | .queen => 900
  | .king => 20000

/-- `AIPlayer.PAWN_TABLE`. -/
def pawnTable : List (List Int) :=
  [[0, 0, 0, 0, 0, 0, 0, 0],
   [5, 10, 10, -20, -20, 10, 10, 5],
   [5, -5, -10, 0, 0, -10, -5, 5],
   [0, 0, 0, 20, 20, 0, 0, 0],
   [5, 5, 10, 25, 25, 10, 5, 5],
   [10, 10, 20, 30, 30, 20, 10, 10],
   [50, 50, 50, 50, 50, 50, 50, 50],
   [0, 0, 0, 0, 0, 0, 0, 0]]

/-- `AIPlayer.KNIGHT_TABLE`. -/
def knightTable : List (List Int) :=
  [[-50, -40, -30, -30, -30, -30, -40, -50],
   [-40, -20, 0, 5, 5, 0, -20, -40],
   [-30, 0, 10, 15, 15, 10, 0, -30],
   [-30, 5, 15, 20, 20, 15, 5, -30],
   [-30, 0, 15, 20, 20, 15, 0, -30],
   [-30, 5, 10, 15, 15, 10, 5, -30],
   [-40, -20, 0, 0, 0, 0, -20, -40],
   [-50, -40, -30, -30, -30, -30, -40, -50]]

/-- `AIPlayer.BISHOP_TABLE`. -/
def bishopTable : List (List Int) :=
  [[-20, -10, -10, -10, -10, -10, -10, -20],
   [-10, 5, 0, 0, 0, 0, 5, -10],
   [-10, 10, 10, 10, 10, 10, 10, -10],
   [-10, 0, 10, 10, 10, 10, 0, -10],
   [-10, 5, 5, 10, 10, 5, 5, -10],
   [-10, 0, 5, 10, 10, 5, 0, -10],
   [-10, 0, 0, 0, 0, 0, 0, -10],
   [-20, -10, -10, -10, -10, -10, -10, -20]]

/-- `AIPlayer.ROOK_TABLE`. -/
def rookTable : List (List Int) :=
  [[0, 0, 0, 5, 5, 0, 0, 0],
   [-5, 0, 0, 0, 0, 0, 0, -5],
   [-5, 0, 0, 0, 0, 0, 0, -5],
   [-5, 0, 0, 0, 0, 0, 0, -5],
   [-5, 0, 0, 0, 0, 0, 0, -5],
   [-5, 0, 0, 0, 0, 0, 0, -5],
   [5, 10, 10, 10, 10, 10, 10, 5],
   [0, 0, 0, 0, 0, 0, 0, 0]]

/-- `AIPlayer.QUEEN_TABLE`. -/
def queenTable : List (List Int) :=
  [[-20, -10, -10, -5, -5, -10, -10, -20],
   [-10, 0, 5, 0, 0, 0, 0, -10],
   [-10, 5, 5, 5, 5, 5, 0, -10],
   [0, 0, 5, 5, 5, 5, 0, -5],
   [-5, 0, 5, 5, 5, 5, 0, -5],
   [-10, 0, 5, 5, 5, 5, 0, -10],
   [-10, 0, 0, 0, 0, 0, 0, -10],
   [-20, -10, -10, -5, -5, -10, -10, -20]]

/-- `AIPlayer.POSITION_TABLES.get`: the king has no table. -/
def positionTable : PieceKind → Option (List (List Int))
  | .pawn => some pawnTable
  | .knight => some knightTable
  | .bishop => some bishopTable
  | .rook => some rookTable
  | .queen => some queenTable
  | .king => none

/-- `table[r][c]` (always in range at the call sites). -/
def tableGet (t : List (List Int)) (r c : Int) : Int :=
  ((t[r.toNat]?.getD [])[c.toNat]?.getD 0)

/-- `AIPlayer.evaluate_board`: signed material-plus-positional sum over
the grid (tables mirrored vertically for black), minus the repetition
penalty `150 × occurrence count` of the current fingerprint. -/
def evaluateBoard (aiColor : PieceColor) (b : Board) (turn : PieceColor) : Int :=
  let total := range8.foldl (fun acc col =>
    range8.foldl (fun acc2 row =>
      match gget b.grid col row with
      | some piece =>
        let materialValue := pieceValue piece.kind
        let positionalValue :=
          match positionTable piece.kind with
          | some t => if piece.color = .white then tableGet t row col else tableGet t (7 - row) col
          | none => 0
        if piece.color = aiColor then acc2 + (materialValue + positionalValue)
        else acc2 - (materialValue + positionalValue)
      | none => acc2) acc) 0
  let repetitions := dictGet b.position_history (getPositionHash b.grid turn)
  let penalty : Int := if 0 < repetitions then 150 * (repetitions : Int) else 0
  total - penalty

/-- The capture-ordering heuristic `score_move` of `minmax`:
`10 × victim value − aggressor value` for captures, 0 otherwise. -/
def scoreMove (g : Grid) (m : Move) : Int :=
  match gget g m.2.1 m.2.2 with
  | some capturedPiece =>
    match gget g m.1.1 m.1.2 with
    | some attackingPiece => 10 * pieceValue capturedPiece.kind - pieceValue attackingPiece.kind
    | none => 0
  | none => 0

/-- The color whose ply it is: the agent when maximizing, the opponent
when minimizing (`current_player_color` in `minmax`). -/
def plyColor (aiColor : PieceColor) (maxi : Bool) : PieceColor :=
  if maxi then aiColor else aiColor.opposite

/-- The board after applying move `m` in place, as `minmax` does before
recursing (identical mutation to `simGrid`). -/
def applyB (b : Board) (m : Move) : Board :=
  match gget b.grid m.1.1 m.1.2 with
  | some p => { b with grid := simGrid b.grid p m.1 m.2 }
  | none => b

/-- Modelled from the spec: an unpruned full-width minimax of the same
depth — same terminal scoring as `minmax` but every child of every node
is evaluated, with no alpha-beta window.  This is the comparison point
of the alpha-beta-equivalence claim, not code of the repository. -/
def fullMinimax (aiColor : PieceColor) : Nat → Board → Bool → Score
  | 0, b, maxi => ofInt (evaluateBoard aiColor b (plyColor aiColor maxi))
  | d + 1, b, maxi =>
    let cpc := plyColor aiColor maxi
    let lm := getAllLegalMoves b.grid cpc
    if lm = [] then
      if isColorInCheck b.grid cpc then (if maxi then ⊥ else ⊤) else ofInt 0
    else if maxi then
      lm.foldl (fun acc m => max acc (fullMinimax aiColor d (applyB b m) false)) ⊥
    else
      lm.foldl (fun acc m => min acc (fullMinimax aiColor d (applyB b m) true)) ⊤

/-- The maximizing move loop of `minmax`, with the board threaded
through each apply/recurse/revert step.  `f` is the recursive search at
depth − 1; the loop tracks `max_eval`, the best move, and `alpha`, and
breaks as soon as `beta <= alpha`.  The revert puts the moved piece
back with `set_position(start_pos)` — the position field is written to
the move's origin square, the source does not save and restore its
prior value — and the captured occupant back at the destination.  A
move whose origin is empty cannot occur (the move list comes from
`get_all_legal_moves`); it is skipped. -/
def abLoopMax (f : Board → Score → Score → Score × Board) :
    List Move → Board → Score → Move → Score → Score → (Score × Move) × Board
  | [], b, maxEval, best, _, _ => ((maxEval, best), b)
  | m :: rest, b, maxEval, best, alpha, beta =>
    match gget b.grid m.1.1 m.1.2 with
    | none => abLoopMax f rest b maxEval best alpha beta
    | some p =>
      let captured := gget b.grid m.2.1 m.2.2
      let b1 := { b with grid := simGrid b.grid p m.1 m.2 }
      let r := f b1 alpha beta
      let b3 := { r.2 with grid := revertGrid r.2.grid { p with pos := m.1 } m.1 m.2 captured }
      let s := if maxEval < r.1 then (r.1, m) else (maxEval, best)
      let alpha' := max alpha r.1
      if beta ≤ alpha' then (s, b3)
      else abLoopMax f rest b3 s.1 s.2 alpha' beta

/-- The minimizing move loop of `minmax`, dual to `abLoopMax` (same
`set_position(start_pos)` revert). -/
def abLoopMin (f : Board → Score → Score → Score × Board) :
    List Move → Board → Score → Move → Score → Score → (Score × Move) × Board
  | [], b, minEval, best, _, _ => ((minEval, best), b)
  | m :: rest, b, minEval, best, alpha, beta =>
    match gget b.grid m.1.1 m.1.2 with
    | none => abLoopMin f rest b minEval best alpha beta
    | some p =>
      let captured := gget b.grid m.2.1 m.2.2
      let b1 := { b with grid := simGrid b.grid p m.1 m.2 }
      let r := f b1 alpha beta
      let b3 := { r.2 with grid := revertGrid r.2.grid { p with pos := m.1 } m.1 m.2 captured }
      let s := if r.1 < minEval then (r.1, m) else (minEval, best)
      let beta' := min beta r.1
      if beta' ≤ alpha then (s, b3)
      else abLoopMin f rest b3 s.1 s.2 alpha beta'

/-- `AIPlayer.minmax`: alpha-beta minimax.  Depth 0 evaluates the
position for the color to move at this ply; a position with no legal
moves scores `∓∞` when the side to move is in check and 0 otherwise;
otherwise the legal moves are sorted descending by the capture
heuristic (a stable sort, as Python's `sorted` with `reverse=True`),
the first sorted move is the default best move, and the matching loop
runs with the board mutated in place and restored around each child. -/
def minmax (aiColor : PieceColor) :
    Nat → Board → Score → Score → Bool → (Score × Option Move) × Board
  | 0, b, _, _, maxi =>
    ((ofInt (evaluateBoard aiColor b (plyColor aiColor maxi)), none), b)
  | d + 1, b, alpha, beta, maxi =>
    let cpc := plyColor aiColor maxi
    let lmt := getAllLegalMovesT b.grid cpc
    let b1 := { b with grid := lmt.2 }
    if lmt.1 = [] then
      if isColorInCheck b1.grid cpc then (((if maxi then (⊥ : Score) else ⊤), none), b1)
      else ((ofInt 0, none), b1)
    else
      let sortedMoves := lmt.1.mergeSort fun m1 m2 =>
        decide (scoreMove b1.grid m2 ≤ scoreMove b1.grid m1)
      if maxi then
        let r := abLoopMax (fun bb a bt => let q := minmax aiColor d bb a bt false; (q.1.1, q.2))
          sortedMoves b1 ⊥ sortedMoves.headI alpha beta
        ((r.1.1, some r.1.2), r.2)
      else
        let r := abLoopMin (fun bb a bt => let q := minmax aiColor d bb a bt true; (q.1.1, q.2))
          sortedMoves b1 ⊤ sortedMoves.headI alpha beta
        ((r.1.1, some r.1.2), r.2)

/-- `Pawn.is_valid_move` from the `pieces.py` variant: vertical moves
require only the destination to be empty (movement 1, or 1–2 from the
starting rank), diagonal moves one step require an enemy occupant. -/
def pawnIsValidMove (color : PieceColor) (currentPos nextPos : Int × Int) (g : Grid) : Bool :=
  let movement := nextPos.2 - currentPos.2
  if currentPos.1 = nextPos.1 ∧ gget g nextPos.1 nextPos.2 = none then
    if color = .white then
      if currentPos.2 = 1 then 0 < movement ∧ movement < 3
      else movement = 1
    else
      if currentPos.2 = 6 then -3 < movement ∧ movement < 0
      else movement = -1
  else
    let xMovement := nextPos.1 - currentPos.1
    match gget g nextPos.1 nextPos.2 with
    | some newPiece =>
      (xMovement = -1 ∨ xMovement = 1) ∧
        ((color = .white ∧ movement = 1 ∧ newPiece.color = .black) ∨
         (color = .black ∧ movement = -1 ∧ newPiece.color = .white))
    | none => false


/-! ### Grid read/write algebra -/

theorem gget_neg {x y : Int} (g : Grid) (h : ¬ inR x y) : gget g x y = none := by
  unfold gget; rw [if_neg h]

theorem gset_neg {x y : Int} (g : Grid) (h : ¬ inR x y) (v : Option Piece) : gset g x y v = g := by
  unfold gset; rw [if_neg h]

theorem gget_nocol {x y : Int} (g : Grid) (hr : inR x y) (hcol : g[x.toNat]? = none) :
    gget g x y = none := by
  unfold gget; rw [if_pos hr, hcol]

theorem gset_nocol {x y : Int} (g : Grid) (hr : inR x y) (hcol : g[x.toNat]? = none)
    (v : Option Piece) : gset g x y v = g := by
  unfold gset; rw [if_pos hr, hcol]

theorem gget_pos {x y : Int} (g : Grid) {col : List (Option Piece)} (hr : inR x y)
    (hcol : g[x.toNat]? = some col) : gget g x y = col[y.toNat]?.getD none := by
  unfold gget; rw [if_pos hr, hcol]

theorem gset_pos {x y : Int} (g : Grid) {col : List (Option Piece)} (hr : inR x y)
    (hcol : g[x.toNat]? = some col) (v : Option Piece) :
    gset g x y v = g.set x.toNat (col.set y.toNat v) := by
  unfold gset; rw [if_pos hr, hcol]

/-- Setting a list index to the value it already holds is the identity. -/
theorem list_set_self {α : Type _} (l : List α) (n : Nat) (a : α) (h : l[n]? = some a) :
    l.set n a = l := by
  induction l generalizing n with
  | nil => simp at h
  | cons x t ih =>
    cases n with
    | zero => simp at h; simp [h]
    | succ k => simp at h; simp [ih k h]

/-- Writing the value a cell already holds is the identity. -/
theorem gset_gget_self (g : Grid) (x y : Int) : gset g x y (gget g x y) = g := by
  by_cases hr : inR x y
  · cases hcol : g[x.toNat]? with
    | none => exact gset_nocol g hr hcol _
    | some col =>
      rw [gset_pos g hr hcol, gget_pos g hr hcol]
      cases hcell : col[y.toNat]? with
      | none =>
        have hlen : col.length ≤ y.toNat := by
          by_contra hlt
          push_neg at hlt
          simp [List.getElem?_eq_getElem hlt] at hcell
        simp only [Option.getD_none]
        rw [List.set_eq_of_length_le hlen]
        exact list_set_self g x.toNat col hcol
      | some v =>
        simp only [Option.getD_some]
        rw [list_set_self col y.toNat _ hcell]
        exact list_set_self g x.toNat col hcol
  · rw [gset_neg g hr]

/-- Writing the same cell twice keeps only the second write. -/
theorem gset_gset_same (g : Grid) (x y : Int) (a b : Option Piece) :
    gset (gset g x y a) x y b = gset g x y b := by
  by_cases hr : inR x y
  · cases hcol : g[x.toNat]? with
    | none => rw [gset_nocol g hr hcol a]
    | some col =>
      have hx : x.toNat < g.length := by
        rcases List.getElem?_eq_some_iff.mp hcol with ⟨h, _⟩
        exact h
      have h1 : (g.set x.toNat (col.set y.toNat a))[x.toNat]? = some (col.set y.toNat a) := by
        rw [List.getElem?_set]
        simp [hx]
      rw [gset_pos g hr hcol a, gset_pos _ hr h1 b, gset_pos g hr hcol b]
      rw [List.set_set, List.set_set]
  · rw [gset_neg g hr]

/-- Reading a different cell after a write sees the old grid. -/
theorem gget_gset_ne (g : Grid) {x y x' y' : Int} (h : (x, y) ≠ (x', y')) (v : Option Piece) :
    gget (gset g x y v) x' y' = gget g x' y' := by
  by_cases hr : inR x y
  · cases hcol : g[x.toNat]? with
    | none => rw [gset_nocol g hr hcol]
    | some col =>
      rw [gset_pos g hr hcol]
      by_cases hr' : inR x' y'
      · have hx : x.toNat < g.length := by
          rcases List.getElem?_eq_some_iff.mp hcol with ⟨hh, _⟩
          exact hh
        by_cases hxx : x.toNat = x'.toNat
        · have hxeq : x = x' := by
            unfold inR at hr hr'
            omega
          subst hxeq
          have hyy : y ≠ y' := fun hy => h (by rw [hy])
          have hyN : y.toNat ≠ y'.toNat := by
            unfold inR at hr hr'
            omega
          have h1 : (g.set x.toNat (col.set y.toNat v))[x.toNat]? = some (col.set y.toNat v) := by
            rw [List.getElem?_set]
            simp [hx]
          rw [gget_pos _ hr' h1, gget_pos g hr' hcol]
          rw [List.getElem?_set, if_neg (fun hc => hyN hc)]
        · have h1 : (g.set x.toNat (col.set y.toNat v))[x'.toNat]? = g[x'.toNat]? := by
            rw [List.getElem?_set, if_neg hxx]
          unfold gget
          rw [h1]
      · rw [gget_neg _ hr', gget_neg g hr']
  · rw [gset_neg g hr]

/-- The well-formedness of a grid: 8 columns of 8 cells. -/
def WFGrid (g : Grid) : Prop := g.length = 8 ∧ ∀ col ∈ g, col.length = 8

instance (g : Grid) : Decidable (WFGrid g) := by unfold WFGrid; infer_instance

/-- Reading the cell just written, on an 8×8 grid. -/
theorem gget_gset_self {g : Grid} {x y : Int} (hwf : WFGrid g) (hr : inR x y)
    (v : Option Piece) : gget (gset g x y v) x y = v := by
  have hxN : x.toNat < g.length := by
    rw [hwf.1]
    unfold inR at hr
    omega
  have hcol : g[x.toNat]? = some g[x.toNat] := List.getElem?_eq_getElem hxN
  have hclen : (g[x.toNat]).length = 8 := hwf.2 _ (List.getElem_mem hxN)
  rw [gset_pos g hr hcol]
  have h1 : (g.set x.toNat ((g[x.toNat]).set y.toNat v))[x.toNat]? =
      some ((g[x.toNat]).set y.toNat v) := by
    rw [List.getElem?_set]
    simp [hxN]
  rw [gget_pos _ hr h1]
  have hyN : y.toNat < (g[x.toNat]).length := by
    rw [hclen]
    unfold inR at hr
    omega
  rw [List.getElem?_set]
  simp [hyN]

/-- `gset` preserves well-formedness. -/
theorem WFGrid_gset {g : Grid} (hwf : WFGrid g) (x y : Int) (v : Option Piece) :
    WFGrid (gset g x y v) := by
  by_cases hr : inR x y
  · cases hcol : g[x.toNat]? with
    | none => rw [gset_nocol g hr hcol]; exact hwf
    | some col =>
      rw [gset_pos g hr hcol]
      constructor
      · simp [hwf.1]
      · intro c hc
        rcases List.mem_or_eq_of_mem_set hc with hmem | heq
        · exact hwf.2 c hmem
        · subst heq
          simp [hwf.2 col (List.getElem?_mem hcol)]
  · rw [gset_neg g hr]; exact hwf

/-- Writes to two distinct cells commute. -/
theorem gset_comm (g : Grid) {x y x' y' : Int} (h : (x, y) ≠ (x', y')) (a b : Option Piece) :
    gset (gset g x y a) x' y' b = gset (gset g x' y' b) x y a := by
  by_cases hr : inR x y
  · by_cases hr' : inR x' y'
    · cases hcol : g[x.toNat]? with
      | none =>
        by_cases hxx : x.toNat = x'.toNat
        · have hcol' : g[x'.toNat]? = none := hxx ▸ hcol
          rw [gset_nocol g hr hcol, gset_nocol g hr' hcol', gset_nocol g hr hcol]
        · rw [gset_nocol g hr hcol]
          cases hcol' : g[x'.toNat]? with
          | none => rw [gset_nocol g hr' hcol', gset_nocol g hr hcol]
          | some col' =>
            rw [gset_pos g hr' hcol' b]
            have h1 : (g.set x'.toNat (col'.set y'.toNat b))[x.toNat]? = none := by
              rw [List.getElem?_set, if_neg (fun hc => hxx hc.symm)]
              exact hcol
            rw [gset_nocol _ hr h1]
      | some col =>
        by_cases hxx : x.toNat = x'.toNat
        · have hxeq : x = x' := by
            unfold inR at hr hr'
            omega
          subst hxeq
          have hyN : y.toNat ≠ y'.toNat := by
            have hyy : y ≠ y' := fun hy => h (by rw [hy])
            unfold inR at hr hr'
            omega
          have hx : x.toNat < g.length := (List.getElem?_eq_some_iff.mp hcol).1
          rw [gset_pos g hr hcol a, gset_pos g hr' hcol b]
          have h1 : (g.set x.toNat (col.set y.toNat a))[x.toNat]? =
              some (col.set y.toNat a) := by
            rw [List.getElem?_set]
            simp [hx]
          have h2 : (g.set x.toNat (col.set y'.toNat b))[x.toNat]? =
              some (col.set y'.toNat b) := by
            rw [List.getElem?_set]
            simp [hx]
          rw [gset_pos _ hr' h1 b, gset_pos _ hr h2 a]
          rw [List.set_set, List.set_set, List.set_comm _ _ _ hyN]
        · have hx : x.toNat < g.length := (List.getElem?_eq_some_iff.mp hcol).1
          rw [gset_pos g hr hcol a]
          cases hcol' : g[x'.toNat]? with
          | none =>
            have h1 : (g.set x.toNat (col.set y.toNat a))[x'.toNat]? = none := by
              rw [List.getElem?_set, if_neg hxx]
              exact hcol'
            rw [gset_nocol _ hr' h1, gset_nocol g hr' hcol', gset_pos g hr hcol a]
          | some col' =>
            have h1 : (g.set x.toNat (col.set y.toNat a))[x'.toNat]? = some col' := by
              rw [List.getElem?_set, if_neg hxx]
              exact hcol'
            have h2 : (g.set x'.toNat (col'.set y'.toNat b))[x.toNat]? = some col := by
              rw [List.getElem?_set, if_neg (fun hc => hxx hc.symm)]
              exact hcol
            rw [gset_pos _ hr' h1 b, gset_pos g hr' hcol' b, gset_pos _ hr h2 a]
            exact List.set_comm _ _ _ hxx
    · rw [gset_neg _ hr', gset_neg g hr']
  · rw [gset_neg g hr, gset_neg _ hr]

/-- The revert of a speculative move restores the grid exactly,
whenever the moved piece really was on its origin square. -/
theorem revert_sim (g : Grid) (p : Piece) (s e : Int × Int)
    (hp : gget g s.1 s.2 = some p) :
    revertGrid (simGrid g p s e) p s e (gget g e.1 e.2) = g := by
  unfold revertGrid simGrid
  by_cases hse : (s.1, s.2) = (e.1, e.2)
  · have h1 : e.1 = s.1 := by rw [Prod.mk.injEq] at hse; exact hse.1.symm
    have h2 : e.2 = s.2 := by rw [Prod.mk.injEq] at hse; exact hse.2.symm
    rw [h1, h2]
    rw [gset_gset_same, gset_gset_same, gset_gset_same]
    exact gset_gget_self g s.1 s.2
  · rw [gset_gset_same]
    have hcomm := gset_comm (gset g e.1 e.2 (some { p with pos := e })) hse (some p)
      (gget g e.1 e.2)
    rw [hcomm, gset_gset_same, gset_gget_self g e.1 e.2]
    have hx := gset_gget_self g s.1 s.2
    rw [hp] at hx
    exact hx

/-- A failed `move_piece` leaves the whole board value (grid, every
piece's stored position, move history, repetition history) unchanged. -/
theorem movePiece_false (b : Board) (cur new : Int × Int)
    (h : (movePiece b cur new).1 = false) : (movePiece b cur new).2 = b := by
  cases hp : gget b.grid cur.1 cur.2 with
  | none => simp only [movePiece, hp]
  | some piece =>
    simp only [movePiece, hp] at h ⊢
    by_cases hm : new ∉ getMoves piece b.grid
    · simp only [if_pos hm]
    · simp only [if_neg hm] at h ⊢
      by_cases hc : isColorInCheck (simGrid b.grid piece cur new) piece.color
      · simp only [hc, if_true]
        have hrr := revert_sim b.grid piece cur new hp
        simp only [hrr]
      · simp only [hc, if_false] at h
        simp at h

/-- The inner speculative loop of `get_all_legal_moves` restores the
grid after every candidate and accumulates exactly the self-check
filter over the original grid. -/
theorem legalMovesInner_eq (c : PieceColor) (p : Piece) (s : Int × Int)
    (es : List (Int × Int)) (g : Grid) (acc : List Move)
    (hp : gget g s.1 s.2 = some p) :
    legalMovesInner c p s es g acc =
      (acc ++ es.filterMap (fun e =>
        if ¬ isColorInCheck (simGrid g p s e) c then some (s, e) else none), g) := by
  induction es generalizing acc with
  | nil => simp [legalMovesInner]
  | cons e rest ih =>
    have hrev : revertGrid (simGrid g p s e) p s e (gget g e.1 e.2) = g :=
      revert_sim g p s e hp
    by_cases hchk : isColorInCheck (simGrid g p s e) c
    · simp only [legalMovesInner, hrev, if_neg (not_not_intro hchk), List.filterMap_cons]
      exact ih acc
    · simp only [legalMovesInner, hrev, if_pos hchk, List.filterMap_cons]
      rw [ih (acc ++ [(s, e)])]
      simp

/-- The row fold of the threaded `get_all_legal_moves` keeps the grid
intact and appends each square's contribution. -/
theorem legalRowFold_eq (g : Grid) (c : PieceColor) (col : Int) (rows : List Int)
    (acc : List Move) :
    (rows.foldl (fun st2 row =>
      match gget st2.2 col row with
      | some piece =>
        if piece.color = c then
          let (acc', g') := legalMovesInner c piece (col, row)
            (getMoves piece st2.2) st2.2 st2.1
          (acc', g')
        else st2
      | none => st2) (acc, g)) =
    (acc ++ rows.flatMap (fun row => legalContrib g c col row), g) := by
  induction rows generalizing acc with
  | nil => simp
  | cons row rest ih =>
    rw [List.foldl_cons, List.flatMap_cons]
    cases hq : gget g col row with
    | none =>
      simp only [hq]
      rw [ih acc]
      simp [legalContrib, hq]
    | some piece =>
      by_cases hcolor : piece.color = c
      · simp only [hq, if_pos hcolor]
        rw [legalMovesInner_eq c piece (col, row) (getMoves piece g) g acc hq]
        rw [ih]
        simp [legalContrib, hq, hcolor, List.append_assoc]
      · simp only [hq, if_neg hcolor]
        rw [ih acc]
        simp [legalContrib, hq, hcolor]

/-- The threaded `get_all_legal_moves` computes the board-scan list and
returns the grid exactly as it was. -/
theorem getAllLegalMovesT_eq (g : Grid) (c : PieceColor) :
    getAllLegalMovesT g c = (getAllLegalMoves g c, g) := by
  unfold getAllLegalMovesT getAllLegalMoves
  have houter : ∀ (cols : List Int) (acc : List Move),
      (cols.foldl (fun st col =>
        range8.foldl (fun st2 row =>
          match gget st2.2 col row with
          | some piece =>
            if piece.color = c then
              let (acc', g') := legalMovesInner c piece (col, row)
                (getMoves piece st2.2) st2.2 st2.1
              (acc', g')
            else st2
          | none => st2) st) (acc, g)) =
      (acc ++ cols.flatMap (fun col =>
        range8.flatMap (fun row => legalContrib g c col row)), g) := by
    intro cols
    induction cols with
    | nil => simp
    | cons col rest ih =>
      intro acc
      rw [List.foldl_cons, List.flatMap_cons]
      rw [legalRowFold_eq g c col range8 acc]
      rw [ih]
      simp [List.append_assoc]
  rw [houter range8 []]
  rw [List.nil_append]

/-- A failed `make_move` leaves the whole game (board, turn, status,
winner) unchanged. -/
theorem makeMove_false (gm : Game) (cur new : Int × Int)
    (h : ((makeMove gm cur new).1).1 = false) : (makeMove gm cur new).2 = gm := by
  by_cases hs : gm.game_status ≠ statusActive
  · simp only [makeMove, if_pos hs]
  · simp only [makeMove, if_neg hs] at h ⊢
    cases hp : gget gm.board.grid cur.1 cur.2 with
    | none => simp only [hp]
    | some piece =>
      simp only [hp] at h ⊢
      by_cases ht : piece.color ≠ gm.turn
      · simp only [if_pos ht]
      · simp only [if_neg ht] at h ⊢
        cases hmp : movePiece gm.board cur new with
        | mk ok b' =>
          simp only [hmp] at h ⊢
          cases ok with
          | false =>
            have hb' : b' = gm.board := by
              have h2 := movePiece_false gm.board cur new (by rw [hmp])
              rw [hmp] at h2
              exact h2
            simp only [hb', if_true]
            split <;> rfl
          | true =>
            simp only [if_neg (by simp : ¬ (true = false))] at h ⊢
            split at h <;> simp at h

/-- C4: whenever `Board.move_piece` returns False the entire position
(grid with every piece's stored position field, move history,
repetition history, hence the fingerprint) is unchanged, and a failed
`Game.make_move` leaves board, turn and status unchanged. -/
theorem C4_rejected_move_unchanged :
    (∀ (b : Board) (cur new : Int × Int), (movePiece b cur new).1 = false →
      (movePiece b cur new).2 = b ∧
      ∀ t, getPositionHash (movePiece b cur new).2.grid t = getPositionHash b.grid t) ∧
    (∀ (gm : Game) (cur new : Int × Int), ((makeMove gm cur new).1).1 = false →
      (makeMove gm cur new).2 = gm) := by
  constructor
  · intro b cur new h
    have hb := movePiece_false b cur new h
    exact ⟨hb, fun t => by rw [hb]⟩
  · intro gm cur new h
    exact makeMove_false gm cur new h

set_option maxRecDepth 100000 in
/-- Witness for C4: a move from an empty square on the initial board is
rejected and changes nothing, at board level and at game level. -/
theorem C4_rejected_move_unchanged_witness :
    (movePiece startGame.board (3, 3) (4, 4)).1 = false ∧
    (movePiece startGame.board (3, 3) (4, 4)).2 = startGame.board ∧
    ((makeMove startGame (3, 3) (4, 4)).1).1 = false ∧
    (makeMove startGame (3, 3) (4, 4)).2 = startGame := by
  have h1 : (movePiece startGame.board (3, 3) (4, 4)).1 = false := rfl
  have h2 : ((makeMove startGame (3, 3) (4, 4)).1).1 = false := rfl
  exact ⟨h1, (C4_rejected_move_unchanged.1 _ _ _ h1).1, h2,
    C4_rejected_move_unchanged.2 _ _ _ h2⟩

/-- The stalemate-trap position of C2: white king a1, black king h8,
black queen b6, black to move. -/
def c2Grid : Grid :=
  gset (gset (gset (List.replicate 8 (List.replicate 8 none))
    0 0 (some ⟨.king, .white, (0, 0)⟩))
    7 7 (some ⟨.king, .black, (7, 7)⟩))
    1 5 (some ⟨.queen, .black, (1, 5)⟩)

/-- The active game holding `c2Grid` with black to move. -/
def c2Game : Game :=
  { board := { grid := c2Grid, moveHistory := [], position_history := [] },
    turn := .black, game_status := statusActive, winner := none }

/-- C2: black's queen move b6–b3 succeeds and stalemates white (white
has no legal moves and is not in check), yet `make_move` leaves the
game status `"active"` and passes the turn to white instead of
classifying the position as the terminal state stalemate — the
`check_game_end_conditions` path only ever assigns `"checkmate"`. -/
theorem C2_stalemate_not_detected :
    (makeMove c2Game (1, 5) (1, 2)).1.1 = true ∧
    isColorInCheck (makeMove c2Game (1, 5) (1, 2)).2.board.grid .white = false ∧
    hasLegalMove (makeMove c2Game (1, 5) (1, 2)).2.board.grid .white = false ∧
    (makeMove c2Game (1, 5) (1, 2)).2.game_status = statusActive ∧
    (makeMove c2Game (1, 5) (1, 2)).2.turn = .white := by
  exact ⟨rfl, rfl, rfl, rfl, rfl⟩

/-- The blocked-pawn position of C7: a white pawn on a2 with a black
pawn directly in front of it on a3, and a4 empty. -/
def c7Grid : Grid :=
  gset (gset (List.replicate 8 (List.replicate 8 none))
    0 1 (some ⟨.pawn, .white, (0, 1)⟩)) 0 2 (some ⟨.pawn, .black, (0, 2)⟩)

/-- C7: the `pieces.py` variant validator accepts the two-square
advance a2–a4 although the intervening square a3 is occupied (it only
checks that the destination is empty), while `Pawn.get_moves` of
`models.py` correctly refuses to generate the jump. -/
theorem C7_pawn_double_step_jump_accepted :
    pawnIsValidMove .white (0, 1) (0, 3) c7Grid = true ∧
    gget c7Grid 0 2 = some ⟨.pawn, .black, (0, 2)⟩ ∧
    ((0 : Int), (3 : Int)) ∉ getMoves ⟨.pawn, .white, (0, 1)⟩ c7Grid := by
  refine ⟨rfl, rfl, by decide⟩

/-- C3: `minmax` at depth 0 returns the evaluation of the position for
the color to move at this ply with no move; at positive depth with no
legal moves it returns `-inf` when the maximizing side is the checked
side to move, `+inf` when the minimizing side is, and exactly 0 with no
move when the side to move is not in check (stalemate). -/
theorem C3_minmax_terminal (aiColor : PieceColor) (b : Board) (d : Nat) (al be : Score)
    (maxi : Bool) :
    ((minmax aiColor 0 b al be maxi).1 =
      (ofInt (evaluateBoard aiColor b (plyColor aiColor maxi)), none)) ∧
    (0 < d → getAllLegalMoves b.grid (plyColor aiColor maxi) = [] →
      (minmax aiColor d b al be maxi).1 =
        ((if isColorInCheck b.grid (plyColor aiColor maxi) then (if maxi then ⊥ else ⊤)
          else ofInt 0), none)) := by
  constructor
  · rfl
  · intro hd hlm
    cases d with
    | zero => omega
    | succ n =>
      rw [minmax, getAllLegalMovesT_eq]
      simp only [hlm, if_pos rfl]
      by_cases hc : isColorInCheck b.grid (plyColor aiColor maxi)
      · simp [hc]
      · simp [hc]

/-- A stalemate position: white king a1, black queen b3, black king h8;
white to move has no legal moves and is not in check. -/
def c3Grid : Grid :=
  gset (gset (gset (List.replicate 8 (List.replicate 8 none))
    0 0 (some ⟨.king, .white, (0, 0)⟩))
    7 7 (some ⟨.king, .black, (7, 7)⟩))
    1 2 (some ⟨.queen, .black, (1, 2)⟩)

/-- The board holding `c3Grid`. -/
def c3Board : Board := { grid := c3Grid, moveHistory := [], position_history := [] }

set_option maxRecDepth 100000 in
/-- Witness for C3, at the stalemate position `c3Board`. -/
theorem C3_minmax_terminal_witness :
    ((minmax .white 0 c3Board ⊥ ⊤ true).1 =
      (ofInt (evaluateBoard .white c3Board (plyColor .white true)), none)) ∧
    0 < 1 ∧ getAllLegalMoves c3Board.grid (plyColor .white true) = [] ∧
    ((minmax .white 1 c3Board ⊥ ⊤ true).1 =
      ((if isColorInCheck c3Board.grid (plyColor .white true) then (if true then ⊥ else ⊤)
        else ofInt 0), none)) := by
  have h := C3_minmax_terminal .white c3Board 1 ⊥ ⊤ true
  have hlm : getAllLegalMoves c3Board.grid (plyColor .white true) = [] := by decide
  exact ⟨h.1, by decide, hlm, h.2 (by decide) hlm⟩

/-- The positional bonus of the spec's evaluation formula: the table of
the piece's kind indexed `[row][col]` for white and `[7 - row][col]`
for black, and 0 for the king, which has no table. -/
def posBonus (k : PieceKind) (c : PieceColor) (row col : Int) : Int :=
  match positionTable k with
  | some t => if c = .white then tableGet t row col else tableGet t (7 - row) col
  | none => 0

/-- One square's term of the spec's evaluation formula: material plus
positional bonus, counted positively for the agent's pieces and
negatively otherwise. -/
def specSquare (aiColor : PieceColor) (g : Grid) (col row : Int) : Int :=
  match gget g col row with
  | some p =>
    (if p.color = aiColor then 1 else -1) * (pieceValue p.kind + posBonus p.kind p.color row col)
  | none => 0

/-- Modelled from the spec: the evaluation as the spec phrases it — the
sum over all squares of the signed material-plus-positional terms,
minus 150 times the recorded occurrence count of the current
fingerprint (0 if it was never recorded). -/
def specEval (aiColor : PieceColor) (b : Board) (turn : PieceColor) : Int :=
  (range8.map (fun col => (range8.map (fun row => specSquare aiColor b.grid col row)).sum)).sum
    - 150 * (dictGet b.position_history (getPositionHash b.grid turn) : Int)

/-- Folding signed additions equals adding the sum of the terms. -/
theorem foldl_add_sum {α : Type _} (f : α → Int) :
    ∀ (l : List α) (a : Int), l.foldl (fun acc x => acc + f x) a = a + (l.map f).sum := by
  intro l
  induction l with
  | nil => intro a; simp
  | cons x t ih =>
    intro a
    rw [List.foldl_cons, ih (a + f x), List.map_cons, List.sum_cons]
    ring

/-- Two folds agree when their step functions agree on the list. -/
theorem listFoldlExt {α β : Type _} (f g : β → α → β) (l : List α)
    (h : ∀ acc x, x ∈ l → f acc x = g acc x) :
    ∀ (b : β), l.foldl f b = l.foldl g b := by
  induction l with
  | nil => intro b; rfl
  | cons x t ih =>
    intro b
    rw [List.foldl_cons, List.foldl_cons, h b x (by simp)]
    exact ih (fun acc y hy => h acc y (by simp [hy])) _

/-- C6: `evaluate_board` computes exactly the spec's formula: the sum
over all occupied squares of material value plus piece-square-table
bonus (tables in white orientation, mirrored vertically for black,
king with no bonus), positive for the agent's pieces and negative
otherwise, minus 150 times the recorded occurrence count of the
current position fingerprint. -/
theorem C6_evaluate_board_formula (aiColor : PieceColor) (b : Board) (turn : PieceColor) :
    evaluateBoard aiColor b turn = specEval aiColor b turn := by
  unfold evaluateBoard specEval
  have hsq : ∀ (acc2 : Int) (col row : Int),
      (match gget b.grid col row with
        | some piece =>
          let materialValue := pieceValue piece.kind
          let positionalValue :=
            match positionTable piece.kind with
            | some t => if piece.color = .white then tableGet t row col
                else tableGet t (7 - row) col
            | none => 0
          if piece.color = aiColor then acc2 + (materialValue + positionalValue)
          else acc2 - (materialValue + positionalValue)
        | none => acc2) = acc2 + specSquare aiColor b.grid col row := by
    intro acc2 col row
    unfold specSquare posBonus
    cases gget b.grid col row with
    | none => simp
    | some p =>
      simp only
      cases positionTable p.kind with
      | none => split_ifs <;> ring
      | some t => split_ifs <;> ring
  have hrow : ∀ (col : Int) (a : Int),
      (range8.foldl (fun acc2 row =>
        match gget b.grid col row with
        | some piece =>
          let materialValue := pieceValue piece.kind
          let positionalValue :=
            match positionTable piece.kind with
            | some t => if piece.color = .white then tableGet t row col
                else tableGet t (7 - row) col
            | none => 0
          if piece.color = aiColor then acc2 + (materialValue + positionalValue)
          else acc2 - (materialValue + positionalValue)
        | none => acc2) a) =
      a + (range8.map (fun row => specSquare aiColor b.grid col row)).sum := by
    intro col a
    rw [listFoldlExt _ (fun acc2 row => acc2 + specSquare aiColor b.grid col row) range8
      (fun acc2 row _ => hsq acc2 col row) a]
    exact foldl_add_sum _ range8 a
  have houter : (range8.foldl (fun acc col =>
      range8.foldl (fun acc2 row =>
        match gget b.grid col row with
        | some piece =>
          let materialValue := pieceValue piece.kind
          let positionalValue :=
            match positionTable piece.kind with
            | some t => if piece.color = .white then tableGet t row col
                else tableGet t (7 - row) col
            | none => 0
          if piece.color = aiColor then acc2 + (materialValue + positionalValue)
          else acc2 - (materialValue + positionalValue)
        | none => acc2) acc) 0) =
      (range8.map (fun col =>
        (range8.map (fun row => specSquare aiColor b.grid col row)).sum)).sum := by
    rw [listFoldlExt _ (fun acc col =>
        acc + (range8.map (fun row => specSquare aiColor b.grid col row)).sum) range8
      (fun acc col _ => hrow col acc) 0]
    rw [foldl_add_sum _ range8 0]
    ring
  rw [houter]
  cases hreps : dictGet b.position_history (getPositionHash b.grid turn) with
  | zero => simp
  | succ n => simp

/-! ### Injectivity of the position fingerprint (C10) -/

/-- Piece symbols are never decimal digits. -/
theorem symbol_not_digit (p : Piece) : p.symbol.isDigit = false := by
  cases p with
  | mk k c pos => cases k <;> cases c <;> rfl

/-- Piece symbols are never the rank separator. -/
theorem symbol_ne_slash (p : Piece) : p.symbol ≠ '/' := by
  cases p with
  | mk k c pos => cases k <;> cases c <;> simp [Piece.symbol]

/-- Piece symbols are never the space before the side tag. -/
theorem symbol_ne_space (p : Piece) : p.symbol ≠ ' ' := by
  cases p with
  | mk k c pos => cases k <;> cases c <;> simp [Piece.symbol]

/-- Two pieces with the same symbol have the same kind and color. -/
theorem symbol_inj {p q : Piece} (h : p.symbol = q.symbol) :
    p.kind = q.kind ∧ p.color = q.color := by
  cases p with
  | mk k c pos =>
    cases q with
    | mk k' c' pos' =>
      cases k <;> cases c <;> cases k' <;> cases c' <;> simp_all [Piece.symbol]

/-- The symbol depends only on kind and color. -/
theorem symbol_congr {p q : Piece} (hk : p.kind = q.kind) (hc : p.color = q.color) :
    p.symbol = q.symbol := by
  unfold Piece.symbol
  rw [hk, hc]

/-- An empty-square count between 1 and 8 prints as one digit. -/
theorem toDigits_single (k : Nat) (h1 : 1 ≤ k) (h2 : k ≤ 8) :
    Nat.toDigits 10 k = [Char.ofNat (48 + k)] := by
  interval_cases k <;> rfl

/-- That digit character is a digit and its code is `48 + k`. -/
theorem countChar_props (k : Nat) (h1 : 1 ≤ k) (h2 : k ≤ 8) :
    (Char.ofNat (48 + k)).isDigit = true ∧ (Char.ofNat (48 + k)).toNat = 48 + k := by
  interval_cases k <;> exact ⟨rfl, rfl⟩

/-- Decoder of the run-length encoding: digits expand to runs of empty
squares, any other character is a piece symbol. -/
def rleDecode : List Char → List (Option Char)
  | [] => []
  | ch :: rest =>
    if ch.isDigit then List.replicate (ch.toNat - 48) none ++ rleDecode rest
    else some ch :: rleDecode rest

/-- The decoder inverts `rleRow` on rows of at most 8 squares whose
symbols are not digits. -/
theorem rleDecode_rleRow :
    ∀ (l : List (Option Char)) (k : Nat), k + l.length ≤ 8 →
      (∀ ch, some ch ∈ l → ch.isDigit = false) →
      rleDecode (rleRow l k) = List.replicate k none ++ l := by
  intro l
  induction l with
  | nil =>
    intro k hk _
    cases k with
    | zero => rfl
    | succ n =>
      have hb2 : n + 1 ≤ 8 := by simp only [List.length_nil] at hk; omega
      have hprops := countChar_props (n + 1) (by omega) hb2
      rw [rleRow, toDigits_single (n + 1) (by omega) hb2]
      rw [rleDecode, if_pos hprops.1, hprops.2]
      have hsub : 48 + (n + 1) - 48 = n + 1 := by omega
      rw [hsub, rleDecode]
  | cons o rest ih =>
    intro k hk hsy
    cases o with
    | none =>
      rw [rleRow]
      rw [ih (k + 1) (by simp only [List.length_cons] at hk; omega)
        (fun ch hch => hsy ch (by simp [hch]))]
      rw [List.replicate_succ']
      simp
    | some ch =>
      have hchd : ch.isDigit = false := hsy ch (by simp)
      have hrest : ∀ c, some c ∈ rest → c.isDigit = false :=
        fun c hc => hsy c (by simp [hc])
      cases k with
      | zero =>
        rw [rleRow, rleDecode, if_neg (by simp [hchd])]
        rw [ih 0 (by simp only [List.length_cons] at hk; omega) hrest]
        simp
      | succ n =>
        have hb2 : n + 1 ≤ 8 := by simp only [List.length_cons] at hk; omega
        have hprops := countChar_props (n + 1) (by omega) hb2
        rw [rleRow, toDigits_single (n + 1) (by omega) hb2]
        rw [List.singleton_append, rleDecode, if_pos hprops.1, hprops.2]
        have hsub : 48 + (n + 1) - 48 = n + 1 := by omega
        rw [hsub, rleDecode, if_neg (by simp [hchd])]
        rw [ih 0 (by simp only [List.length_cons] at hk; omega) hrest]
        simp

/-- Every character of an encoded row is a digit or one of the row's
symbols. -/
theorem rleRow_chars :
    ∀ (l : List (Option Char)) (k : Nat), k + l.length ≤ 8 →
      ∀ ch ∈ rleRow l k, ch.isDigit = true ∨ some ch ∈ l := by
  intro l
  induction l with
  | nil =>
    intro k hk ch hch
    cases k with
    | zero => simp [rleRow] at hch
    | succ n =>
      have hb2 : n + 1 ≤ 8 := by simp only [List.length_nil] at hk; omega
      rw [rleRow, toDigits_single (n + 1) (by omega) hb2] at hch
      simp at hch
      subst hch
      exact Or.inl (countChar_props (n + 1) (by omega) hb2).1
  | cons o rest ih =>
    intro k hk ch hch
    cases o with
    | none =>
      rw [rleRow] at hch
      rcases ih (k + 1) (by simp only [List.length_cons] at hk; omega) ch hch with h | h
      · exact Or.inl h
      · exact Or.inr (by simp [h])
    | some c =>
      have hk0 : rest.length ≤ 7 := by simp only [List.length_cons] at hk; omega
      cases k with
      | zero =>
        rw [rleRow] at hch
        rcases List.mem_cons.mp hch with h | h
        · exact Or.inr (by simp [h])
        · rcases ih 0 (by omega) ch h with h2 | h2
          · exact Or.inl h2
          · exact Or.inr (by simp [h2])
      | succ n =>
        have hb2 : n + 1 ≤ 8 := by simp only [List.length_cons] at hk; omega
        rw [rleRow, toDigits_single (n + 1) (by omega) hb2] at hch
        rcases List.mem_append.mp hch with h | h
        · simp at h
          subst h
          exact Or.inl (countChar_props (n + 1) (by omega) hb2).1
        · rcases List.mem_cons.mp h with h2 | h2
          · exact Or.inr (by simp [h2])
          · rcases ih 0 (by omega) ch h2 with h3 | h3
            · exact Or.inl h3
            · exact Or.inr (by simp [h3])

/-- `"/".join` on at least two parts: first part, separator, rest. -/
theorem intercalate_cons_cons (a b : List Char) (t : List (List Char)) :
    List.intercalate ['/'] (a :: b :: t) = a ++ '/' :: List.intercalate ['/'] (b :: t) := by
  simp [List.intercalate, List.intersperse]

/-- `"/".join` of a single part. -/
theorem intercalate_single (a : List Char) : List.intercalate ['/'] [a] = a := by
  simp [List.intercalate]

/-- Splitting at the first separator is unambiguous when neither prefix
contains the separator. -/
theorem sepFree_head_inj :
    ∀ (x : List Char) (y r1 r2 : List Char), '/' ∉ x → '/' ∉ y →
      x ++ '/' :: r1 = y ++ '/' :: r2 → x = y ∧ r1 = r2 := by
  intro x
  induction x with
  | nil =>
    intro y r1 r2 _ hy h
    cases y with
    | nil =>
      simp only [List.nil_append] at h
      exact ⟨rfl, by injection h⟩
    | cons c ys =>
      simp only [List.nil_append, List.cons_append] at h
      injection h with h1 h2
      exact absurd (by simp [← h1]) hy
  | cons c xs ih =>
    intro y r1 r2 hx hy h
    cases y with
    | nil =>
      simp only [List.cons_append, List.nil_append] at h
      injection h with h1 h2
      exact absurd (by simp [h1]) hx
    | cons d ys =>
      simp only [List.cons_append] at h
      injection h with h1 h2
      have hr := ih ys r1 r2 (fun hm => hx (by simp [hm])) (fun hm => hy (by simp [hm])) h2
      exact ⟨by rw [h1, hr.1], hr.2⟩

/-- `"/".join` is injective on lists of equal length whose parts are
separator-free. -/
theorem intercalate_inj :
    ∀ (l1 l2 : List (List Char)), l1.length = l2.length →
      (∀ s ∈ l1, '/' ∉ s) → (∀ s ∈ l2, '/' ∉ s) →
      List.intercalate ['/'] l1 = List.intercalate ['/'] l2 → l1 = l2 := by
  intro l1
  induction l1 with
  | nil =>
    intro l2 hlen _ _ _
    cases l2 with
    | nil => rfl
    | cons b t2 => simp at hlen
  | cons a t1 ih =>
    intro l2 hlen h1 h2 h
    cases l2 with
    | nil => simp at hlen
    | cons b t2 =>
      cases t1 with
      | nil =>
        cases t2 with
        | nil =>
          rw [intercalate_single, intercalate_single] at h
          rw [h]
        | cons b2 t2' => simp at hlen
      | cons a2 t1' =>
        cases t2 with
        | nil => simp at hlen
        | cons b2 t2' =>
          rw [intercalate_cons_cons, intercalate_cons_cons] at h
          have hh := sepFree_head_inj a b _ _ (h1 a (by simp)) (h2 b (by simp)) h
          have ht := ih (b2 :: t2') (by simpa using hlen) (fun s hs => h1 s (by simp [hs]))
            (fun s hs => h2 s (by simp [hs])) hh.2
          rw [hh.1, ht]

/-- A rank has 8 squares. -/
theorem rowSyms_length (g : Grid) (row : Int) : (rowSyms g row).length = 8 := by
  simp [rowSyms, range8]

/-- The symbols of a rank are never digits. -/
theorem rowSyms_not_digit (g : Grid) (row : Int) :
    ∀ ch, some ch ∈ rowSyms g row → ch.isDigit = false := by
  intro ch hch
  simp only [rowSyms, List.mem_map] at hch
  obtain ⟨col, _, hcol⟩ := hch
  rcases Option.map_eq_some'.mp hcol with ⟨p, _, hp⟩
  rw [← hp]
  exact symbol_not_digit p

/-- An encoded rank never contains the separator. -/
theorem encodeRow_no_slash (g : Grid) (row : Int) : '/' ∉ rleRow (rowSyms g row) 0 := by
  intro hmem
  rcases rleRow_chars (rowSyms g row) 0 (by rw [rowSyms_length]) '/' hmem with h | h
  · simp at h
  · simp only [rowSyms, List.mem_map] at h
    obtain ⟨col, _, hcol⟩ := h
    rcases Option.map_eq_some'.mp hcol with ⟨p, _, hp⟩
    exact symbol_ne_slash p hp

/-- Pointwise equality from equality of maps over the same list. -/
theorem map_eq_map_pointwise {α β : Type _} (f g : α → β) :
    ∀ (l : List α), l.map f = l.map g → ∀ x ∈ l, f x = g x := by
  intro l
  induction l with
  | nil => intro _ x hx; simp at hx
  | cons a t ih =>
    intro h x hx
    simp only [List.map_cons, List.cons.injEq] at h
    rcases List.mem_cons.mp hx with rfl | hx2
    · exact h.1
    · exact ih h.2 x hx2

/-- The kind and color of an optional occupant. -/
def pieceId (p : Piece) : PieceKind × PieceColor := (p.kind, p.color)

/-- Two grids have the same occupancy: the same piece kind and color,
or emptiness, on every square. -/
def sameOccupancy (g1 g2 : Grid) : Prop :=
  ∀ col ∈ range8, ∀ row ∈ range8,
    (gget g1 col row).map pieceId = (gget g2 col row).map pieceId

instance (g1 g2 : Grid) : Decidable (sameOccupancy g1 g2) := by
  unfold sameOccupancy; infer_instance

/-- C10: `get_position_hash` is a canonical fingerprint in both
directions — two grids and side-to-move tags hash identically exactly
when they have identical occupancy on every square and the same side to
move; the run-length-encoded encoding with the side tag is injective. -/
theorem C10_fingerprint_injective (g1 g2 : Grid) (t1 t2 : PieceColor) :
    getPositionHash g1 t1 = getPositionHash g2 t2 ↔ sameOccupancy g1 g2 ∧ t1 = t2 := by
  constructor
  · intro h
    unfold getPositionHash at h
    obtain ⟨hbody, htag⟩ := List.append_inj' h (by rfl)
    have ht : t1 = t2 := by
      cases t1 <;> cases t2 <;> first | rfl | simp [colorChar] at htag
    have hrows := intercalate_inj _ _ (by simp)
      (by
        intro s hs
        simp only [List.mem_map] at hs
        obtain ⟨row, _, rfl⟩ := hs
        exact encodeRow_no_slash g1 row)
      (by
        intro s hs
        simp only [List.mem_map] at hs
        obtain ⟨row, _, rfl⟩ := hs
        exact encodeRow_no_slash g2 row)
      hbody
    have hpt := map_eq_map_pointwise _ _ _ hrows
    refine ⟨?occ, ht⟩
    intro col hcol row hrow
    have h1 := hpt row (List.mem_reverse.mpr hrow)
    have d1 := rleDecode_rleRow (rowSyms g1 row) 0 (by rw [rowSyms_length])
      (rowSyms_not_digit g1 row)
    have d2 := rleDecode_rleRow (rowSyms g2 row) 0 (by rw [rowSyms_length])
      (rowSyms_not_digit g2 row)
    have hd : rleDecode (rleRow (rowSyms g1 row) 0) = rleDecode (rleRow (rowSyms g2 row) 0) := by
      rw [h1]
    rw [d1, d2] at hd
    have hrow' : rowSyms g1 row = rowSyms g2 row := by simpa using hd
    have hsym : (gget g1 col row).map Piece.symbol = (gget g2 col row).map Piece.symbol := by
      unfold rowSyms at hrow'
      exact map_eq_map_pointwise _ _ range8 hrow' col hcol
    cases hq1 : gget g1 col row with
    | none =>
      cases hq2 : gget g2 col row with
      | none => rfl
      | some q => rw [hq1, hq2] at hsym; simp at hsym
    | some p =>
      cases hq2 : gget g2 col row with
      | none => rw [hq1, hq2] at hsym; simp at hsym
      | some q =>
        rw [hq1, hq2] at hsym
        simp only [Option.map_some'] at hsym ⊢
        have hinj := symbol_inj (by injection hsym)
        simp [pieceId, hinj.1, hinj.2]
  · rintro ⟨hocc, rfl⟩
    unfold getPositionHash
    congr 2
    apply List.map_congr_left
    intro row hrow
    congr 1
    unfold rowSyms
    apply List.map_congr_left
    intro col hcol
    have h := hocc col hcol row (List.mem_reverse.mp hrow)
    cases hq1 : gget g1 col row with
    | none =>
      cases hq2 : gget g2 col row with
      | none => rfl
      | some q => rw [hq1, hq2] at h; simp [pieceId] at h
    | some p =>
      cases hq2 : gget g2 col row with
      | none => rw [hq1, hq2] at h; simp [pieceId] at h
      | some q =>
        rw [hq1, hq2] at h
        simp only [Option.map_some'] at h ⊢
        have hkc : p.kind = q.kind ∧ p.color = q.color := by
          have := Prod.mk.injEq p.kind p.color q.kind q.color
          simpa [pieceId, Prod.ext_iff] using h
        rw [symbol_congr hkc.1 hkc.2]

set_option maxRecDepth 100000 in
/-- Witness for C10: the initial position and the stalemate-trap board
have different occupancy, so their fingerprints differ; identical
occupancy and turn give identical fingerprints. -/
theorem C10_fingerprint_injective_witness :
    getPositionHash setupGrid .white ≠ getPositionHash c2Grid .white ∧
    getPositionHash setupGrid .white = getPositionHash setupGrid .white := by
  constructor
  · intro h
    have hocc := ((C10_fingerprint_injective setupGrid c2Grid .white .white).mp h).1
    exact absurd hocc (by decide)
  · exact (C10_fingerprint_injective setupGrid setupGrid .white .white).mpr ⟨by decide, rfl⟩

/-! ### The attack scan versus pseudo-legal move sets (C5) -/

/-- Membership in a sliding ray: the square at step `i`, preceded only
by in-range empty squares, itself in range and not occupied by an own
piece. -/
theorem mem_rayWalk (g : Grid) (c : PieceColor) (x y dx dy : Int) :
    ∀ (fuel : Nat) (i0 : Int) (e : Int × Int),
      e ∈ rayWalk g c x y dx dy fuel i0 ↔
        ∃ i : Int, i0 ≤ i ∧ i < i0 + (fuel : Int) ∧ e = (x + i * dx, y + i * dy) ∧
          inR (x + i * dx) (y + i * dy) ∧
          (∀ j : Int, i0 ≤ j → j < i →
            inR (x + j * dx) (y + j * dy) ∧ gget g (x + j * dx) (y + j * dy) = none) ∧
          (∀ q, gget g (x + i * dx) (y + i * dy) = some q → q.color ≠ c) := by
  intro fuel
  induction fuel with
  | zero =>
    intro i0 e
    simp only [rayWalk, List.not_mem_nil, false_iff, not_exists]
    intro i hi
    omega
  | succ n ih =>
    intro i0 e
    rw [rayWalk]
    by_cases hr : inR (x + i0 * dx) (y + i0 * dy)
    · rw [if_pos hr]
      cases hq : gget g (x + i0 * dx) (y + i0 * dy) with
      | some t =>
        dsimp only
        by_cases hc : t.color ≠ c
        · rw [if_pos hc]
          simp only [List.mem_singleton]
          constructor
          · rintro rfl
            exact ⟨i0, le_refl _, by omega, rfl, hr,
              fun j hj1 hj2 => absurd hj1 (by omega),
              fun q hq2 => by rw [hq] at hq2; injection hq2 with h; rw [← h]; exact hc⟩
          · rintro ⟨i, h1, h2, rfl, hinr, hpre, henemy⟩
            rcases eq_or_lt_of_le h1 with rfl | hlt
            · rfl
            · have hemp := (hpre i0 (le_refl _) hlt).2
              rw [hq] at hemp
              cases hemp
        · rw [if_neg hc]
          simp only [List.not_mem_nil, false_iff, not_exists]
          rintro i ⟨h1, h2, heq, hinr, hpre, henemy⟩
          rcases eq_or_lt_of_le h1 with rfl | hlt
          · exact hc (henemy t hq)
          · have hemp := (hpre i0 (le_refl _) hlt).2
            rw [hq] at hemp
            cases hemp
      | none =>
        dsimp only
        simp only [List.mem_cons, ih (i0 + 1) e]
        constructor
        · rintro (rfl | ⟨i, h1, h2, heq, hinr, hpre, henemy⟩)
          · refine ⟨i0, le_refl _, by omega, rfl, hr,
              fun j hj1 hj2 => absurd hj1 (by omega), fun q hq2 => ?qq⟩
            rw [hq] at hq2
            cases hq2
          · refine ⟨i, by omega, by omega, heq, hinr, ?pre, henemy⟩
            intro j hj1 hj2
            rcases eq_or_lt_of_le hj1 with rfl | hlt
            · exact ⟨hr, hq⟩
            · exact hpre j (by omega) hj2
        · rintro ⟨i, h1, h2, heq, hinr, hpre, henemy⟩
          rcases eq_or_lt_of_le h1 with rfl | hlt
          · exact Or.inl heq
          · exact Or.inr ⟨i, by omega, by omega, heq, hinr,
              fun j hj1 hj2 => hpre j (by omega) hj2, henemy⟩
    · rw [if_neg hr]
      simp only [List.not_mem_nil, false_iff, not_exists]
      rintro i ⟨h1, h2, heq, hinr, hpre, henemy⟩
      rcases eq_or_lt_of_le h1 with rfl | hlt
      · exact hr hinr
      · exact hr (hpre i0 (le_refl _) hlt).1

/-- The diagonal-direction test of the attack scan. -/
def isDiagDir (d : Int × Int) : Prop :=
  d ∈ ([(1, 1), (1, -1), (-1, 1), (-1, -1)] : List (Int × Int))

instance (d : Int × Int) : Decidable (isDiagDir d) := by unfold isDiagDir; infer_instance

/-- The kind test the scan applies to the first occupant of a ray. -/
def rayKindOK (d : Int × Int) (q : Piece) (i : Int) : Prop :=
  if isDiagDir d then
    (q.kind = .bishop ∨ q.kind = .queen) ∨ (i = 1 ∧ q.kind = .king)
  else (q.kind = .rook ∨ q.kind = .queen) ∨ (i = 1 ∧ q.kind = .king)

/-- The attack-ray scan succeeds exactly when the first occupant along
the direction, at some step `i` preceded only by in-range empty
squares, is an attacker of the right color and kind (sliders at any
distance, the king only at step 1). -/
theorem attackRay_iff (g : Grid) (c : PieceColor) (tx ty dx dy : Int) :
    ∀ (fuel : Nat) (i0 : Int),
      attackRay g c tx ty dx dy fuel i0 = true ↔
        ∃ i : Int, i0 ≤ i ∧ i < i0 + (fuel : Int) ∧ inR (tx + i * dx) (ty + i * dy) ∧
          (∀ j : Int, i0 ≤ j → j < i →
            inR (tx + j * dx) (ty + j * dy) ∧ gget g (tx + j * dx) (ty + j * dy) = none) ∧
          ∃ q, gget g (tx + i * dx) (ty + i * dy) = some q ∧ q.color = c ∧
            rayKindOK (dx, dy) q i := by
  intro fuel
  induction fuel with
  | zero =>
    intro i0
    simp only [attackRay, Bool.false_eq_true, false_iff, not_exists]
    intro i hi
    omega
  | succ n ih =>
    intro i0
    rw [attackRay]
    by_cases hr : inR (tx + i0 * dx) (ty + i0 * dy)
    · rw [if_pos hr]
      cases hq : gget g (tx + i0 * dx) (ty + i0 * dy) with
      | some t =>
        dsimp only
        by_cases hc : t.color = c
        · rw [if_pos hc]
          constructor
          · intro hkind
            refine ⟨i0, le_refl _, by omega, hr,
              fun j hj1 hj2 => absurd hj1 (by omega), t, hq, hc, ?kk⟩
            unfold rayKindOK isDiagDir
            by_cases hdiag :
                (dx, dy) ∈ ([(1, 1), (1, -1), (-1, 1), (-1, -1)] : List (Int × Int))
            · rw [if_pos hdiag] at hkind ⊢
              exact of_decide_eq_true hkind
            · rw [if_neg hdiag] at hkind ⊢
              exact of_decide_eq_true hkind
          · rintro ⟨i, h1, h2, hinr, hpre, q, hq2, hqc, hkind⟩
            rcases eq_or_lt_of_le h1 with rfl | hlt
            · rw [hq] at hq2
              injection hq2 with hq3
              subst hq3
              unfold rayKindOK isDiagDir at hkind
              by_cases hdiag :
                  (dx, dy) ∈ ([(1, 1), (1, -1), (-1, 1), (-1, -1)] : List (Int × Int))
              · rw [if_pos hdiag] at hkind ⊢
                exact decide_eq_true hkind
              · rw [if_neg hdiag] at hkind ⊢
                exact decide_eq_true hkind
            · have hemp := (hpre i0 (le_refl _) hlt).2
              rw [hq] at hemp
              cases hemp
        · rw [if_neg hc]
          simp only [Bool.false_eq_true, false_iff, not_exists]
          rintro i ⟨h1, h2, hinr, hpre, q, hq2, hqc, hkind⟩
          rcases eq_or_lt_of_le h1 with rfl | hlt
          · rw [hq] at hq2
            injection hq2 with hq3
            subst hq3
            exact hc hqc
          · have hemp := (hpre i0 (le_refl _) hlt).2
            rw [hq] at hemp
            cases hemp
      | none =>
        dsimp only
        rw [ih (i0 + 1)]
        constructor
        · rintro ⟨i, h1, h2, hinr, hpre, q, hq2, hqc, hkind⟩
          refine ⟨i, by omega, by omega, hinr, ?pre, q, hq2, hqc, hkind⟩
          intro j hj1 hj2
          rcases eq_or_lt_of_le hj1 with rfl | hlt
          · exact ⟨hr, hq⟩
          · exact hpre j (by omega) hj2
        · rintro ⟨i, h1, h2, hinr, hpre, q, hq2, hqc, hkind⟩
          rcases eq_or_lt_of_le h1 with rfl | hlt
          · rw [hq] at hq2
            cases hq2
          · exact ⟨i, by omega, by omega, hinr,
              fun j hj1 hj2 => hpre j (by omega) hj2, q, hq2, hqc, hkind⟩
    · rw [if_neg hr]
      simp only [Bool.false_eq_true, false_iff, not_exists]
      rintro i ⟨h1, h2, hinr, hpre, _⟩
      rcases eq_or_lt_of_le h1 with rfl | hlt
      · exact hr hinr
      · exact hr (hpre i0 (le_refl _) hlt).1

/-- An occupied cell is in range (out-of-range reads are empty). -/
theorem gget_some_inR {g : Grid} {x y : Int} {p : Piece} (h : gget g x y = some p) :
    inR x y := by
  by_cases hr : inR x y
  · exact hr
  · rw [gget_neg g hr] at h
    cases h

/-- A guarded occupant test holds exactly when the cell holds a piece
passing the test. -/
theorem occCheck_iff (g : Grid) (x y : Int) (P : Piece → Bool) :
    ((if inR x y then
        match gget g x y with
        | some piece => P piece
        | none => false
      else false) = true) ↔ ∃ p, gget g x y = some p ∧ P p = true := by
  by_cases hr : inR x y
  · rw [if_pos hr]
    cases hq : gget g x y with
    | none => simp
    | some a => simp
  · rw [if_neg hr]
    simp only [Bool.false_eq_true, false_iff, not_exists]
    rintro p ⟨hp, _⟩
    exact hr (gget_some_inR hp)

/-- The attack scan, characterised: a diagonal pawn attacker one rank
behind, a knight at a knight offset, or a first occupant along one of
the eight rays of the right color and kind. -/
theorem isSquareAttackedBy_iff (g : Grid) (pos : Int × Int) (c : PieceColor) :
    isSquareAttackedBy g pos c = true ↔
      (∃ dx ∈ ([-1, 1] : List Int), ∃ p,
        gget g (pos.1 + dx) (pos.2 + (if c = .white then (-1 : Int) else 1)) = some p ∧
          p.kind = .pawn ∧ p.color = c) ∨
      (∃ d ∈ knightOffsets, ∃ p,
        gget g (pos.1 + d.1) (pos.2 + d.2) = some p ∧ p.kind = .knight ∧ p.color = c) ∨
      (∃ d ∈ scanDirs, ∃ i : Int, 1 ≤ i ∧ i < 8 ∧
        inR (pos.1 + i * d.1) (pos.2 + i * d.2) ∧
        (∀ j : Int, 1 ≤ j → j < i →
          inR (pos.1 + j * d.1) (pos.2 + j * d.2) ∧
            gget g (pos.1 + j * d.1) (pos.2 + j * d.2) = none) ∧
        ∃ q, gget g (pos.1 + i * d.1) (pos.2 + i * d.2) = some q ∧ q.color = c ∧
          rayKindOK d q i) := by
  unfold isSquareAttackedBy
  simp only [Bool.or_eq_true, List.any_eq_true]
  rw [or_assoc]
  apply or_congr
  · apply exists_congr
    intro dx
    apply and_congr_right
    intro _
    rw [occCheck_iff g (pos.1 + dx) (pos.2 + (if c = .white then (-1 : Int) else 1))
      (fun piece => decide (piece.kind = .pawn ∧ piece.color = c))]
    apply exists_congr
    intro p
    simp [decide_eq_true_eq]
  · apply or_congr
    · apply exists_congr
      intro d
      apply and_congr_right
      intro _
      rw [occCheck_iff g (pos.1 + d.1) (pos.2 + d.2)
        (fun piece => decide (piece.kind = .knight ∧ piece.color = c))]
      apply exists_congr
      intro p
      simp [decide_eq_true_eq]
    · apply exists_congr
      intro d
      apply and_congr_right
      intro _
      rw [attackRay_iff g c pos.1 pos.2 d.1 d.2 7 1]
      apply exists_congr
      intro i
      constructor
      · rintro ⟨h1, h2, h3, h4, h5⟩
        exact ⟨h1, by omega, h3, h4, h5⟩
      · rintro ⟨h1, h2, h3, h4, h5⟩
        exact ⟨h1, by omega, h3, h4, h5⟩

/-- Membership in a slider's move set: some direction and step, empty
in-range squares strictly between, destination in range and not
occupied by an own piece. -/
theorem mem_slider (g : Grid) (c : PieceColor) (x y : Int) (dirs : List (Int × Int))
    (e : Int × Int) :
    (e ∈ dirs.flatMap fun d => rayWalk g c x y d.1 d.2 7 1) ↔
      ∃ d ∈ dirs, ∃ i : Int, 1 ≤ i ∧ i < 8 ∧ e = (x + i * d.1, y + i * d.2) ∧
        inR (x + i * d.1) (y + i * d.2) ∧
        (∀ j : Int, 1 ≤ j → j < i →
          inR (x + j * d.1) (y + j * d.2) ∧ gget g (x + j * d.1) (y + j * d.2) = none) ∧
        (∀ q, gget g (x + i * d.1) (y + i * d.2) = some q → q.color ≠ c) := by
  rw [List.mem_flatMap]
  apply exists_congr
  intro d
  apply and_congr_right
  intro _
  rw [mem_rayWalk g c x y d.1 d.2 7 1]
  apply exists_congr
  intro i
  constructor
  · rintro ⟨h1, h2, h3⟩
    exact ⟨h1, by omega, h3⟩
  · rintro ⟨h1, h2, h3⟩
    exact ⟨h1, by omega, h3⟩

/-- The guarded destination test shared by knight and king moves. -/
theorem destCheck_iff (g : Grid) (c : PieceColor) (m e : Int × Int) :
    ((if inR m.1 m.2 then
        match gget g m.1 m.2 with
        | some t => if t.color ≠ c then some m else none
        | none => some m
      else none) = some e) ↔
      (e = m ∧ inR m.1 m.2 ∧ ∀ q, gget g m.1 m.2 = some q → q.color ≠ c) := by
  by_cases hr : inR m.1 m.2
  · rw [if_pos hr]
    cases hq : gget g m.1 m.2 with
    | none =>
      dsimp only
      simp only [Option.some.injEq]
      constructor
      · rintro rfl
        exact ⟨rfl, hr, fun q hq2 => Option.noConfusion hq2⟩
      · rintro ⟨rfl, _, _⟩
        rfl
    | some t =>
      dsimp only
      by_cases hc : t.color ≠ c
      · rw [if_pos hc]
        simp only [Option.some.injEq]
        constructor
        · rintro rfl
          refine ⟨rfl, hr, fun q hq2 => ?qcol⟩
          rw [← hq2]
          exact hc
        · rintro ⟨rfl, _, _⟩
          rfl
      · rw [if_neg hc]
        constructor
        · intro h
          cases h
        · rintro ⟨rfl, _, hcol⟩
          exact absurd (hcol t rfl) hc
  · rw [if_neg hr]
    constructor
    · intro h
      cases h
    · rintro ⟨_, hr2, _⟩
      exact absurd hr2 hr

/-- Membership in the knight's move set: one of the eight offsets, in
range, not occupied by an own piece. -/
theorem mem_knightMoves (p : Piece) (g : Grid) (e : Int × Int) :
    e ∈ knightMoves p g ↔
      ∃ d ∈ knightOffsets, e = (p.pos.1 + d.1, p.pos.2 + d.2) ∧
        inR (p.pos.1 + d.1) (p.pos.2 + d.2) ∧
        (∀ q, gget g (p.pos.1 + d.1) (p.pos.2 + d.2) = some q → q.color ≠ p.color) := by
  unfold knightMoves
  have hlist : ([(p.pos.1 + 1, p.pos.2 + 2), (p.pos.1 - 1, p.pos.2 + 2),
      (p.pos.1 + 1, p.pos.2 - 2), (p.pos.1 - 1, p.pos.2 - 2),
      (p.pos.1 + 2, p.pos.2 + 1), (p.pos.1 - 2, p.pos.2 + 1),
      (p.pos.1 + 2, p.pos.2 - 1), (p.pos.1 - 2, p.pos.2 - 1)] : List (Int × Int)) =
      knightOffsets.map (fun d => (p.pos.1 + d.1, p.pos.2 + d.2)) := by
    simp [knightOffsets, sub_eq_add_neg]
  dsimp only
  rw [hlist, List.filterMap_map, List.mem_filterMap]
  apply exists_congr
  intro d
  apply and_congr_right
  intro _
  exact destCheck_iff g p.color (p.pos.1 + d.1, p.pos.2 + d.2) e

/-- Membership in the king's move set: a one-square offset other than
(0,0), in range, not occupied by an own piece. -/
theorem mem_kingMoves (p : Piece) (g : Grid) (e : Int × Int) :
    e ∈ kingMoves p g ↔
      ∃ dx ∈ ([-1, 0, 1] : List Int), ∃ dy ∈ ([-1, 0, 1] : List Int), ¬(dx = 0 ∧ dy = 0) ∧
        e = (p.pos.1 + dx, p.pos.2 + dy) ∧ inR (p.pos.1 + dx) (p.pos.2 + dy) ∧
        (∀ q, gget g (p.pos.1 + dx) (p.pos.2 + dy) = some q → q.color ≠ p.color) := by
  unfold kingMoves
  rw [List.mem_flatMap]
  apply exists_congr
  intro dx
  apply and_congr_right
  intro _
  rw [List.mem_filterMap]
  apply exists_congr
  intro dy
  apply and_congr_right
  intro _
  by_cases hz : dx = 0 ∧ dy = 0
  · rw [if_pos hz]
    constructor
    · intro h
      cases h
    · rintro ⟨hnz, _⟩
      exact absurd hz hnz
  · rw [if_neg hz]
    rw [destCheck_iff g p.color (p.pos.1 + dx, p.pos.2 + dy) e]
    constructor
    · rintro ⟨h1, h2, h3⟩
      exact ⟨hz, h1, h2, h3⟩
    · rintro ⟨_, h1, h2, h3⟩
      exact ⟨h1, h2, h3⟩

/-- `range8` membership is exactly the `0..7` range. -/
theorem mem_range8 {x : Int} : x ∈ range8 ↔ 0 ≤ x ∧ x ≤ 7 := by
  simp only [range8, List.mem_cons, List.not_mem_nil, or_false]
  omega

/-- Position consistency, as a board scan: every occupied cell holds a
piece whose stored `pos` field names that cell. -/
def posConsistentB (g : Grid) : Bool :=
  range8.all fun col => range8.all fun row =>
    match gget g col row with
    | some p => decide (p.pos = (col, row))
    | none => true

/-- On a position-consistent grid, every occupant's `pos` field equals
its cell. -/
theorem posConsistentB_spec {g : Grid} (h : posConsistentB g = true)
    {x y : Int} {p : Piece} (hq : gget g x y = some p) : p.pos = (x, y) := by
  have hr := gget_some_inR hq
  unfold posConsistentB at h
  simp only [List.all_eq_true] at h
  have h2 := h x (mem_range8.mpr ⟨hr.1, hr.2.1⟩) y (mem_range8.mpr ⟨hr.2.2.1, hr.2.2.2⟩)
  rw [hq] at h2
  exact of_decide_eq_true h2

/-- Modelled from the spec: a pawn attacks its two forward diagonals
(one rank toward the enemy side), independent of occupancy. -/
def pawnAttacks (p : Piece) : List (Int × Int) :=
  let dir : Int := if p.color = .white then 1 else -1
  ([-1, 1] : List Int).filterMap fun dx =>
    if inR (p.pos.1 + dx) (p.pos.2 + dir) then some (p.pos.1 + dx, p.pos.2 + dir) else none

/-- Modelled from the spec: fixed-offset attack targets (knight and
king), independent of occupancy, restricted to the board. -/
def offsetTargets (pos : Int × Int) (offs : List (Int × Int)) : List (Int × Int) :=
  offs.filterMap fun d =>
    if inR (pos.1 + d.1) (pos.2 + d.2) then some (pos.1 + d.1, pos.2 + d.2) else none

/-- The king's eight one-square offsets. -/
def kingOffsets : List (Int × Int) :=
  [(-1, -1), (-1, 0), (-1, 1), (0, -1), (0, 1), (1, -1), (1, 0), (1, 1)]

/-- Modelled from the spec: one sliding attack ray — walk from the
piece, keep empty squares, stop at the first occupant which is hit
regardless of its colour. -/
def rayWalkAtt (g : Grid) (x y dx dy : Int) : Nat → Int → List (Int × Int)
  | 0, _ => []
  | fuel + 1, i =>
    let nx := x + i * dx
    let ny := y + i * dy
    if inR nx ny then
      match gget g nx ny with
      | some _ => [(nx, ny)]
      | none => (nx, ny) :: rayWalkAtt g x y dx dy fuel (i + 1)
    else []

/-- Modelled from the spec: the set of squares a piece attacks — pawn
diagonals, knight offsets, king neighbours, slider rays stopped at the
first occupant (hit at any distance, any colour). -/
def attackSquares (p : Piece) (g : Grid) : List (Int × Int) :=
  match p.kind with
  | .pawn => pawnAttacks p
  | .knight => offsetTargets p.pos knightOffsets
  | .king => offsetTargets p.pos kingOffsets
  | .rook => rookDirs.flatMap fun d => rayWalkAtt g p.pos.1 p.pos.2 d.1 d.2 7 1
  | .bishop => bishopDirs.flatMap fun d => rayWalkAtt g p.pos.1 p.pos.2 d.1 d.2 7 1
  | .queen => (rookDirs ++ bishopDirs).flatMap fun d => rayWalkAtt g p.pos.1 p.pos.2 d.1 d.2 7 1

/-- Modelled from the spec's claim: the naive attack definition — some
piece of the colour on the board has the square among its pseudo-legal
`get_moves` destinations. -/
def attackedNaive (g : Grid) (c : PieceColor) (s : Int × Int) : Bool :=
  range8.any fun col => range8.any fun row =>
    match gget g col row with
    | some p => decide (p.color = c) && decide (s ∈ getMoves p g)
    | none => false

/-- Modelled from the spec, amended: some piece of the colour on the
board has the square among its attack squares. -/
def attackedAmended (g : Grid) (c : PieceColor) (s : Int × Int) : Bool :=
  range8.any fun col => range8.any fun row =>
    match gget g col row with
    | some p => decide (p.color = c) && decide (s ∈ attackSquares p g)
    | none => false

/-- The amended attack predicate, characterised by an occupant whose
attack squares contain the target. -/
theorem attackedAmended_iff (g : Grid) (c : PieceColor) (s : Int × Int) :
    attackedAmended g c s = true ↔
      ∃ x y : Int, ∃ p, gget g x y = some p ∧ p.color = c ∧ s ∈ attackSquares p g := by
  unfold attackedAmended
  simp only [List.any_eq_true]
  constructor
  · rintro ⟨col, hcol, row, hrow, h⟩
    cases hq : gget g col row with
    | none =>
      rw [hq] at h
      cases h
    | some p =>
      rw [hq] at h
      rw [Bool.and_eq_true, decide_eq_true_eq, decide_eq_true_eq] at h
      exact ⟨col, row, p, hq, h.1, h.2⟩
  · rintro ⟨x, y, p, hq, hc, hm⟩
    have hr := gget_some_inR hq
    refine ⟨x, mem_range8.mpr ⟨hr.1, hr.2.1⟩, y, mem_range8.mpr ⟨hr.2.2.1, hr.2.2.2⟩, ?_⟩
    rw [hq, Bool.and_eq_true, decide_eq_true_eq, decide_eq_true_eq]
    exact ⟨hc, hm⟩

theorem attackSquares_pawn {p : Piece} (hk : p.kind = .pawn) (g : Grid) :
    attackSquares p g = pawnAttacks p := by
  unfold attackSquares
  rw [hk]

theorem attackSquares_knight {p : Piece} (hk : p.kind = .knight) (g : Grid) :
    attackSquares p g = offsetTargets p.pos knightOffsets := by
  unfold attackSquares
  rw [hk]

theorem attackSquares_king {p : Piece} (hk : p.kind = .king) (g : Grid) :
    attackSquares p g = offsetTargets p.pos kingOffsets := by
  unfold attackSquares
  rw [hk]

theorem attackSquares_rook {p : Piece} (hk : p.kind = .rook) (g : Grid) :
    attackSquares p g = rookDirs.flatMap fun d => rayWalkAtt g p.pos.1 p.pos.2 d.1 d.2 7 1 := by
  unfold attackSquares
  rw [hk]

theorem attackSquares_bishop {p : Piece} (hk : p.kind = .bishop) (g : Grid) :
    attackSquares p g = bishopDirs.flatMap fun d => rayWalkAtt g p.pos.1 p.pos.2 d.1 d.2 7 1 := by
  unfold attackSquares
  rw [hk]

theorem attackSquares_queen {p : Piece} (hk : p.kind = .queen) (g : Grid) :
    attackSquares p g =
      (rookDirs ++ bishopDirs).flatMap fun d => rayWalkAtt g p.pos.1 p.pos.2 d.1 d.2 7 1 := by
  unfold attackSquares
  rw [hk]

/-- Membership in the pawn attack diagonals. -/
theorem mem_pawnAttacks (p : Piece) (e : Int × Int) :
    e ∈ pawnAttacks p ↔
      ∃ dx ∈ ([-1, 1] : List Int),
        e = (p.pos.1 + dx, p.pos.2 + (if p.color = .white then (1 : Int) else -1)) ∧
        inR (p.pos.1 + dx) (p.pos.2 + (if p.color = .white then (1 : Int) else -1)) := by
  unfold pawnAttacks
  dsimp only
  rw [List.mem_filterMap]
  apply exists_congr
  intro dx
  apply and_congr_right
  intro _
  by_cases hr : inR (p.pos.1 + dx) (p.pos.2 + (if p.color = .white then (1 : Int) else -1))
  · rw [if_pos hr]
    simp only [Option.some.injEq]
    constructor
    · rintro rfl
      exact ⟨rfl, hr⟩
    · rintro ⟨rfl, _⟩
      rfl
  · rw [if_neg hr]
    constructor
    · rintro h
      cases h
    · rintro ⟨rfl, h⟩
      exact absurd h hr

/-- Membership in a fixed-offset target set. -/
theorem mem_offsetTargets (pos : Int × Int) (offs : List (Int × Int)) (e : Int × Int) :
    e ∈ offsetTargets pos offs ↔
      ∃ d ∈ offs, e = (pos.1 + d.1, pos.2 + d.2) ∧ inR (pos.1 + d.1) (pos.2 + d.2) := by
  unfold offsetTargets
  rw [List.mem_filterMap]
  apply exists_congr
  intro d
  apply and_congr_right
  intro _
  by_cases hr : inR (pos.1 + d.1) (pos.2 + d.2)
  · rw [if_pos hr]
    simp only [Option.some.injEq]
    constructor
    · rintro rfl
      exact ⟨rfl, hr⟩
    · rintro ⟨rfl, _⟩
      rfl
  · rw [if_neg hr]
    constructor
    · rintro h
      cases h
    · rintro ⟨rfl, h⟩
      exact absurd h hr

/-- Membership in an attack ray: the square at step `i`, preceded only
by in-range empty squares, itself in range (the first occupant counts
whatever its colour). -/
theorem mem_rayWalkAtt (g : Grid) (x y dx dy : Int) :
    ∀ (fuel : Nat) (i0 : Int) (e : Int × Int),
      e ∈ rayWalkAtt g x y dx dy fuel i0 ↔
        ∃ i : Int, i0 ≤ i ∧ i < i0 + (fuel : Int) ∧ e = (x + i * dx, y + i * dy) ∧
          inR (x + i * dx) (y + i * dy) ∧
          (∀ j : Int, i0 ≤ j → j < i →
            inR (x + j * dx) (y + j * dy) ∧ gget g (x + j * dx) (y + j * dy) = none) := by
  intro fuel
  induction fuel with
  | zero =>
    intro i0 e
    simp only [rayWalkAtt, List.not_mem_nil, false_iff, not_exists]
    intro i hi
    omega
  | succ n ih =>
    intro i0 e
    rw [rayWalkAtt]
    by_cases hr : inR (x + i0 * dx) (y + i0 * dy)
    · rw [if_pos hr]
      cases hq : gget g (x + i0 * dx) (y + i0 * dy) with
      | some t =>
        dsimp only
        simp only [List.mem_singleton]
        constructor
        · rintro rfl
          exact ⟨i0, le_refl _, by omega, rfl, hr,
            fun j hj1 hj2 => absurd hj1 (by omega)⟩
        · rintro ⟨i, h1, h2, rfl, hinr, hpre⟩
          rcases eq_or_lt_of_le h1 with rfl | hlt
          · rfl
          · have hemp := (hpre i0 (le_refl _) hlt).2
            rw [hq] at hemp
            cases hemp
      | none =>
        dsimp only
        simp only [List.mem_cons, ih (i0 + 1) e]
        constructor
        · rintro (rfl | ⟨i, h1, h2, heq, hinr, hpre⟩)
          · exact ⟨i0, le_refl _, by omega, rfl, hr,
              fun j hj1 hj2 => absurd hj1 (by omega)⟩
          · refine ⟨i, by omega, by omega, heq, hinr, ?_⟩
            intro j hj1 hj2
            rcases eq_or_lt_of_le hj1 with rfl | hlt
            · exact ⟨hr, hq⟩
            · exact hpre j (by omega) hj2
        · rintro ⟨i, h1, h2, heq, hinr, hpre⟩
          rcases eq_or_lt_of_le h1 with rfl | hlt
          · exact Or.inl heq
          · exact Or.inr ⟨i, by omega, by omega, heq, hinr,
              fun j hj1 hj2 => hpre j (by omega) hj2⟩
    · rw [if_neg hr]
      simp only [List.not_mem_nil, false_iff, not_exists]
      rintro i ⟨h1, h2, heq, hinr, hpre⟩
      rcases eq_or_lt_of_le h1 with rfl | hlt
      · exact hr hinr
      · exact hr (hpre i0 (le_refl _) hlt).1

/-- Membership in a bundle of attack rays. -/
theorem mem_sliderAtt (g : Grid) (x y : Int) (dirs : List (Int × Int)) (e : Int × Int) :
    (e ∈ dirs.flatMap fun d => rayWalkAtt g x y d.1 d.2 7 1) ↔
      ∃ d ∈ dirs, ∃ i : Int, 1 ≤ i ∧ i < 8 ∧ e = (x + i * d.1, y + i * d.2) ∧
        inR (x + i * d.1) (y + i * d.2) ∧
        (∀ j : Int, 1 ≤ j → j < i →
          inR (x + j * d.1) (y + j * d.2) ∧ gget g (x + j * d.1) (y + j * d.2) = none) := by
  rw [List.mem_flatMap]
  apply exists_congr
  intro d
  apply and_congr_right
  intro _
  rw [mem_rayWalkAtt g x y d.1 d.2 7 1]
  apply exists_congr
  intro i
  constructor
  · rintro ⟨h1, h2, h⟩
    exact ⟨h1, by omega, h⟩
  · rintro ⟨h1, h2, h⟩
    exact ⟨h1, by omega, h⟩

/-- The knight offset list is closed under negation. -/
theorem neg_mem_knightOffsets {d : Int × Int} (h : d ∈ knightOffsets) :
    (-d.1, -d.2) ∈ knightOffsets := by
  simp only [knightOffsets, List.mem_cons, List.not_mem_nil, or_false] at h
  rcases h with rfl | rfl | rfl | rfl | rfl | rfl | rfl | rfl <;> decide

/-- The negation of a scan direction is a king offset. -/
theorem neg_scanDir_mem_kingOffsets {d : Int × Int} (h : d ∈ scanDirs) :
    (-d.1, -d.2) ∈ kingOffsets := by
  simp only [scanDirs, List.mem_cons, List.not_mem_nil, or_false] at h
  rcases h with rfl | rfl | rfl | rfl | rfl | rfl | rfl | rfl <;> decide

/-- The negation of a diagonal scan direction is a bishop direction. -/
theorem neg_scanDir_diag_mem_bishopDirs {d : Int × Int} (h : d ∈ scanDirs)
    (hd : isDiagDir d) : (-d.1, -d.2) ∈ bishopDirs := by
  simp only [scanDirs, List.mem_cons, List.not_mem_nil, or_false] at h
  rcases h with rfl | rfl | rfl | rfl | rfl | rfl | rfl | rfl
  any_goals decide
  all_goals exact absurd hd (by decide)

/-- The negation of an orthogonal scan direction is a rook direction. -/
theorem neg_scanDir_orth_mem_rookDirs {d : Int × Int} (h : d ∈ scanDirs)
    (hd : ¬ isDiagDir d) : (-d.1, -d.2) ∈ rookDirs := by
  simp only [scanDirs, List.mem_cons, List.not_mem_nil, or_false] at h
  rcases h with rfl | rfl | rfl | rfl | rfl | rfl | rfl | rfl
  any_goals decide
  all_goals exact absurd (by decide) hd

/-- The negation of a king offset is a scan direction. -/
theorem neg_mem_kingOffsets_scanDirs {d : Int × Int} (h : d ∈ kingOffsets) :
    (-d.1, -d.2) ∈ scanDirs := by
  simp only [kingOffsets, List.mem_cons, List.not_mem_nil, or_false] at h
  rcases h with rfl | rfl | rfl | rfl | rfl | rfl | rfl | rfl <;> decide

/-- The negation of a rook direction is an orthogonal scan direction. -/
theorem neg_mem_rookDirs {d : Int × Int} (h : d ∈ rookDirs) :
    (-d.1, -d.2) ∈ scanDirs ∧ ¬ isDiagDir (-d.1, -d.2) := by
  simp only [rookDirs, List.mem_cons, List.not_mem_nil, or_false] at h
  rcases h with rfl | rfl | rfl | rfl <;> exact ⟨by decide, by decide⟩

/-- The negation of a bishop direction is a diagonal scan direction. -/
theorem neg_mem_bishopDirs {d : Int × Int} (h : d ∈ bishopDirs) :
    (-d.1, -d.2) ∈ scanDirs ∧ isDiagDir (-d.1, -d.2) := by
  simp only [bishopDirs, List.mem_cons, List.not_mem_nil, or_false] at h
  rcases h with rfl | rfl | rfl | rfl <;> exact ⟨by decide, by decide⟩

/-- Flip a target-centred attack ray into a piece-centred one: the
occupant at step `i` from the target sees the target at step `i` of
the opposite direction, over the same empty squares. -/
theorem sliderAtt_flip {g : Grid} {s : Int × Int} {d : Int × Int} {i : Int} {q : Piece}
    (hs : inR s.1 s.2) (hi1 : 1 ≤ i) (hi2 : i < 8)
    (hpre : ∀ j : Int, 1 ≤ j → j < i →
      inR (s.1 + j * d.1) (s.2 + j * d.2) ∧ gget g (s.1 + j * d.1) (s.2 + j * d.2) = none)
    (hp1 : q.pos.1 = s.1 + i * d.1) (hp2 : q.pos.2 = s.2 + i * d.2) :
    ∃ i' : Int, 1 ≤ i' ∧ i' < 8 ∧ s = (q.pos.1 + i' * (-d.1), q.pos.2 + i' * (-d.2)) ∧
      inR (q.pos.1 + i' * (-d.1)) (q.pos.2 + i' * (-d.2)) ∧
      (∀ j : Int, 1 ≤ j → j < i' →
        inR (q.pos.1 + j * (-d.1)) (q.pos.2 + j * (-d.2)) ∧
          gget g (q.pos.1 + j * (-d.1)) (q.pos.2 + j * (-d.2)) = none) := by
  have e1 : q.pos.1 + i * (-d.1) = s.1 := by rw [hp1]; ring
  have e2 : q.pos.2 + i * (-d.2) = s.2 := by rw [hp2]; ring
  refine ⟨i, hi1, hi2, ?_, ?_, ?_⟩
  · rw [e1, e2]
  · rw [e1, e2]
    exact hs
  · intro j hj1 hj2
    have hk := hpre (i - j) (by omega) (by omega)
    have f1 : q.pos.1 + j * (-d.1) = s.1 + (i - j) * d.1 := by rw [hp1]; ring
    have f2 : q.pos.2 + j * (-d.2) = s.2 + (i - j) * d.2 := by rw [hp2]; ring
    rw [f1, f2]
    exact hk

/-- Flip a piece-centred attack ray into the scan's target-centred ray
clause. -/
theorem scanRay_of_att {g : Grid} {c : PieceColor} {s : Int × Int} {x y : Int}
    {p : Piece} {d : Int × Int} {i : Int}
    (hq : gget g x y = some p) (hc : p.color = c)
    (hpp1 : p.pos.1 = x) (hpp2 : p.pos.2 = y)
    (hi1 : 1 ≤ i) (hi2 : i < 8)
    (hseq : s = (p.pos.1 + i * d.1, p.pos.2 + i * d.2))
    (hpre : ∀ j : Int, 1 ≤ j → j < i →
      inR (p.pos.1 + j * d.1) (p.pos.2 + j * d.2) ∧
        gget g (p.pos.1 + j * d.1) (p.pos.2 + j * d.2) = none)
    (hkind : rayKindOK (-d.1, -d.2) p i)
    (hmem : (-d.1, -d.2) ∈ scanDirs) :
    ∃ d' ∈ scanDirs, ∃ i' : Int, 1 ≤ i' ∧ i' < 8 ∧
      inR (s.1 + i' * d'.1) (s.2 + i' * d'.2) ∧
      (∀ j : Int, 1 ≤ j → j < i' →
        inR (s.1 + j * d'.1) (s.2 + j * d'.2) ∧
          gget g (s.1 + j * d'.1) (s.2 + j * d'.2) = none) ∧
      ∃ q, gget g (s.1 + i' * d'.1) (s.2 + i' * d'.2) = some q ∧ q.color = c ∧
        rayKindOK d' q i' := by
  have g1 : s.1 + i * -d.1 = x := by
    rw [hseq]
    dsimp only
    rw [hpp1]
    ring
  have g2 : s.2 + i * -d.2 = y := by
    rw [hseq]
    dsimp only
    rw [hpp2]
    ring
  refine ⟨(-d.1, -d.2), hmem, i, hi1, hi2, ?_, ?_, p, ?_, hc, hkind⟩
  · dsimp only
    rw [g1, g2]
    exact gget_some_inR hq
  · intro j hj1 hj2
    have hkpre := hpre (i - j) (by omega) (by omega)
    have f1 : s.1 + j * -d.1 = p.pos.1 + (i - j) * d.1 := by
      rw [hseq]
      dsimp only
      ring
    have f2 : s.2 + j * -d.2 = p.pos.2 + (i - j) * d.2 := by
      rw [hseq]
      dsimp only
      ring
    dsimp only
    rw [f1, f2]
    exact hkpre
  · dsimp only
    rw [g1, g2]
    exact hq

/-- The scan implies the amended piece-centred attack predicate (on a
position-consistent grid, for an on-board target square). -/
theorem attackedAmended_of_scan {g : Grid} {c : PieceColor} {s : Int × Int}
    (hpc : posConsistentB g = true) (hs : inR s.1 s.2)
    (h : isSquareAttackedBy g s c = true) : attackedAmended g c s = true := by
  rw [isSquareAttackedBy_iff] at h
  rw [attackedAmended_iff]
  rcases h with ⟨dx, hdx, p, hq, hk, hc⟩ | ⟨d, hd, p, hq, hk, hc⟩ |
    ⟨d, hd, i, hi1, hi2, hinr, hpre, q, hq, hqc, hkind⟩
  · -- a pawn one rank behind a forward diagonal of the target
    simp only [List.mem_cons, List.not_mem_nil, or_false] at hdx
    have hpos := posConsistentB_spec hpc hq
    have hp1 : p.pos.1 = s.1 + dx := by rw [hpos]
    have hp2 : p.pos.2 = s.2 + (if c = .white then (-1 : Int) else 1) := by rw [hpos]
    refine ⟨s.1 + dx, s.2 + (if c = .white then (-1 : Int) else 1), p, hq, hc, ?_⟩
    rw [attackSquares_pawn hk, mem_pawnAttacks, hp1, hp2, hc]
    have hsum : (if c = .white then (-1 : Int) else 1) +
        (if c = .white then (1 : Int) else -1) = 0 := by
      cases c <;> simp
    have e1 : s.1 + dx + -dx = s.1 := by ring
    have e2 : s.2 + (if c = .white then (-1 : Int) else 1) +
        (if c = .white then (1 : Int) else -1) = s.2 := by
      rw [add_assoc, hsum, add_zero]
    refine ⟨-dx, ?_, ?_, ?_⟩
    · rcases hdx with rfl | rfl <;> decide
    · rw [e1, e2]
    · rw [e1, e2]
      exact hs
  · -- a knight at a knight offset from the target
    have hpos := posConsistentB_spec hpc hq
    have hp1 : p.pos.1 = s.1 + d.1 := by rw [hpos]
    have hp2 : p.pos.2 = s.2 + d.2 := by rw [hpos]
    refine ⟨s.1 + d.1, s.2 + d.2, p, hq, hc, ?_⟩
    rw [attackSquares_knight hk, mem_offsetTargets]
    have e1 : s.1 + d.1 + -d.1 = s.1 := by ring
    have e2 : s.2 + d.2 + -d.2 = s.2 := by ring
    refine ⟨(-d.1, -d.2), neg_mem_knightOffsets hd, ?_, ?_⟩
    · dsimp only
      rw [hp1, hp2, e1, e2]
    · dsimp only
      rw [hp1, hp2, e1, e2]
      exact hs
  · -- the first occupant along a scan ray
    have hpos := posConsistentB_spec hpc hq
    have hp1 : q.pos.1 = s.1 + i * d.1 := by rw [hpos]
    have hp2 : q.pos.2 = s.2 + i * d.2 := by rw [hpos]
    refine ⟨s.1 + i * d.1, s.2 + i * d.2, q, hq, hqc, ?_⟩
    unfold rayKindOK at hkind
    by_cases hdiag : isDiagDir d
    · rw [if_pos hdiag] at hkind
      rcases hkind with hslider | ⟨hi, hking⟩
      · have hnm := neg_scanDir_diag_mem_bishopDirs hd hdiag
        rcases hslider with hbis | hqueen
        · rw [attackSquares_bishop hbis, mem_sliderAtt]
          exact ⟨(-d.1, -d.2), hnm, sliderAtt_flip hs hi1 hi2 hpre hp1 hp2⟩
        · rw [attackSquares_queen hqueen, mem_sliderAtt]
          exact ⟨(-d.1, -d.2), List.mem_append_right _ hnm,
            sliderAtt_flip hs hi1 hi2 hpre hp1 hp2⟩
      · subst hi
        rw [attackSquares_king hking, mem_offsetTargets]
        have e1 : q.pos.1 + -d.1 = s.1 := by rw [hp1]; ring
        have e2 : q.pos.2 + -d.2 = s.2 := by rw [hp2]; ring
        refine ⟨(-d.1, -d.2), neg_scanDir_mem_kingOffsets hd, ?_, ?_⟩
        · dsimp only
          rw [e1, e2]
        · dsimp only
          rw [e1, e2]
          exact hs
    · rw [if_neg hdiag] at hkind
      rcases hkind with hslider | ⟨hi, hking⟩
      · have hnm := neg_scanDir_orth_mem_rookDirs hd hdiag
        rcases hslider with hrook | hqueen
        · rw [attackSquares_rook hrook, mem_sliderAtt]
          exact ⟨(-d.1, -d.2), hnm, sliderAtt_flip hs hi1 hi2 hpre hp1 hp2⟩
        · rw [attackSquares_queen hqueen, mem_sliderAtt]
          exact ⟨(-d.1, -d.2), List.mem_append_left _ hnm,
            sliderAtt_flip hs hi1 hi2 hpre hp1 hp2⟩
      · subst hi
        rw [attackSquares_king hking, mem_offsetTargets]
        have e1 : q.pos.1 + -d.1 = s.1 := by rw [hp1]; ring
        have e2 : q.pos.2 + -d.2 = s.2 := by rw [hp2]; ring
        refine ⟨(-d.1, -d.2), neg_scanDir_mem_kingOffsets hd, ?_, ?_⟩
        · dsimp only
          rw [e1, e2]
        · dsimp only
          rw [e1, e2]
          exact hs

/-- The amended piece-centred attack predicate implies the scan (on a
position-consistent grid). -/
theorem scan_of_attackedAmended {g : Grid} {c : PieceColor} {s : Int × Int}
    (hpc : posConsistentB g = true)
    (h : attackedAmended g c s = true) : isSquareAttackedBy g s c = true := by
  rw [attackedAmended_iff] at h
  rw [isSquareAttackedBy_iff]
  obtain ⟨x, y, p, hq, hc, hm⟩ := h
  have hpos := posConsistentB_spec hpc hq
  have hpp1 : p.pos.1 = x := by rw [hpos]
  have hpp2 : p.pos.2 = y := by rw [hpos]
  cases hk : p.kind with
  | pawn =>
    rw [attackSquares_pawn hk, mem_pawnAttacks] at hm
    obtain ⟨dx, hdx, hseq, hinr⟩ := hm
    simp only [List.mem_cons, List.not_mem_nil, or_false] at hdx
    have hs1 : s.1 = x + dx := by rw [hseq]; dsimp only; rw [hpp1]
    have hs2 : s.2 = y + (if c = .white then (1 : Int) else -1) := by
      rw [hseq]
      dsimp only
      rw [hpp2, hc]
    refine Or.inl ⟨-dx, ?_, p, ?_, hk, hc⟩
    · rcases hdx with rfl | rfl <;> decide
    · have g1 : s.1 + -dx = x := by rw [hs1]; ring
      have g2 : s.2 + (if c = .white then (-1 : Int) else 1) = y := by
        rw [hs2]
        cases c <;> simp
      rw [g1, g2]
      exact hq
  | knight =>
    rw [attackSquares_knight hk, mem_offsetTargets] at hm
    obtain ⟨d, hd, hseq, hinr⟩ := hm
    have hs1 : s.1 = x + d.1 := by rw [hseq]; dsimp only; rw [hpp1]
    have hs2 : s.2 = y + d.2 := by rw [hseq]; dsimp only; rw [hpp2]
    have g1 : s.1 + -d.1 = x := by rw [hs1]; ring
    have g2 : s.2 + -d.2 = y := by rw [hs2]; ring
    refine Or.inr (Or.inl ⟨(-d.1, -d.2), neg_mem_knightOffsets hd, p, ?_, hk, hc⟩)
    dsimp only
    rw [g1, g2]
    exact hq
  | king =>
    rw [attackSquares_king hk, mem_offsetTargets] at hm
    obtain ⟨d, hd, hseq, hinr⟩ := hm
    have hseq' : s = (p.pos.1 + 1 * d.1, p.pos.2 + 1 * d.2) := by
      rw [hseq]
      norm_num
    refine Or.inr (Or.inr (scanRay_of_att hq hc hpp1 hpp2 (le_refl 1) (by omega) hseq'
      (fun j hj1 hj2 => absurd hj1 (by omega)) ?_ (neg_mem_kingOffsets_scanDirs hd)))
    unfold rayKindOK
    split
    · exact Or.inr ⟨rfl, hk⟩
    · exact Or.inr ⟨rfl, hk⟩
  | rook =>
    rw [attackSquares_rook hk, mem_sliderAtt] at hm
    obtain ⟨d, hd, i, hi1, hi2, hseq, hinr, hpre⟩ := hm
    have hnm := neg_mem_rookDirs hd
    refine Or.inr (Or.inr (scanRay_of_att hq hc hpp1 hpp2 hi1 hi2 hseq hpre ?_ hnm.1))
    unfold rayKindOK
    rw [if_neg hnm.2]
    exact Or.inl (Or.inl hk)
  | bishop =>
    rw [attackSquares_bishop hk, mem_sliderAtt] at hm
    obtain ⟨d, hd, i, hi1, hi2, hseq, hinr, hpre⟩ := hm
    have hnm := neg_mem_bishopDirs hd
    refine Or.inr (Or.inr (scanRay_of_att hq hc hpp1 hpp2 hi1 hi2 hseq hpre ?_ hnm.1))
    unfold rayKindOK
    rw [if_pos hnm.2]
    exact Or.inl (Or.inl hk)
  | queen =>
    rw [attackSquares_queen hk, mem_sliderAtt] at hm
    obtain ⟨d, hd, i, hi1, hi2, hseq, hinr, hpre⟩ := hm
    rcases List.mem_append.mp hd with hdr | hdb
    · have hnm := neg_mem_rookDirs hdr
      refine Or.inr (Or.inr (scanRay_of_att hq hc hpp1 hpp2 hi1 hi2 hseq hpre ?_ hnm.1))
      unfold rayKindOK
      rw [if_neg hnm.2]
      exact Or.inl (Or.inr hk)
    · have hnm := neg_mem_bishopDirs hdb
      refine Or.inr (Or.inr (scanRay_of_att hq hc hpp1 hpp2 hi1 hi2 hseq hpre ?_ hnm.1))
      unfold rayKindOK
      rw [if_pos hnm.2]
      exact Or.inl (Or.inr hk)

/-- The lone-pawn position refuting the literal C5 claim: a single
white pawn on a2 (its stored position consistent with its cell). -/
def c5Grid : Grid :=
  gset (List.replicate 8 (List.replicate 8 none)) 0 1 (some ⟨.pawn, .white, (0, 1)⟩)

/-- Counterexample to C5 as stated: on `c5Grid` the scan reports b3 as
attacked by white (the pawn's diagonal), but no white piece has b3
among its pseudo-legal `get_moves` destinations — the pawn's diagonal
is only generated onto an enemy-occupied square.  The grid is
position-consistent, so the divergence is not an artefact. -/
theorem C5_scan_differs_from_naive :
    isSquareAttackedBy c5Grid (1, 2) .white = true ∧
    attackedNaive c5Grid .white (1, 2) = false ∧
    posConsistentB c5Grid = true := by
  exact ⟨rfl, rfl, rfl⟩

/-- C5, amended: on a position-consistent grid and for an on-board
square, `is_square_attacked_by(square, color)` returns true iff some
piece of that colour on the board has the square among its *attack
squares* — diagonal-only pawn attacks independent of occupancy, fixed
knight offsets, king neighbours, and slider rays stopped at the first
occupant, which is hit at any distance regardless of its colour — not
its pseudo-legal `get_moves` destinations. -/
theorem C5_attack_scan_amended (g : Grid) (c : PieceColor) (s : Int × Int)
    (hpc : posConsistentB g = true) (hs : inR s.1 s.2) :
    isSquareAttackedBy g s c = attackedAmended g c s := by
  cases h1 : isSquareAttackedBy g s c with
  | true =>
    exact (attackedAmended_of_scan hpc hs h1).symm
  | false =>
    cases h2 : attackedAmended g c s with
    | true => rw [← h1, scan_of_attackedAmended hpc h2]
    | false => rfl

/-- Witness for the amended C5 on the lone-pawn grid at b3. -/
theorem C5_attack_scan_amended_witness :
    posConsistentB c5Grid = true ∧ inR (1 : Int) 2 ∧
      isSquareAttackedBy c5Grid (1, 2) .white = attackedAmended c5Grid .white (1, 2) := by
  exact ⟨rfl, by decide, C5_attack_scan_amended c5Grid .white (1, 2) rfl (by decide)⟩

/-! ### The board invariant under raw `move_piece` (C8) -/

/-- The scan form of position consistency coincides with the universal
statement. -/
theorem posConsistentB_iff (g : Grid) :
    posConsistentB g = true ↔
      ∀ x y : Int, ∀ p : Piece, gget g x y = some p → p.pos = (x, y) := by
  constructor
  · exact fun h x y p hq => posConsistentB_spec h hq
  · intro h
    unfold posConsistentB
    simp only [List.all_eq_true]
    intro col _ row _
    cases hq : gget g col row with
    | none => rfl
    | some p => exact decide_eq_true (h col row p hq)

/-- Writing a cell with `none`, or with a piece whose stored position
names that cell, keeps the grid position-consistent. -/
theorem posConsistentB_gset {g : Grid} (hwf : WFGrid g)
    (hpc : posConsistentB g = true) (x y : Int) (v : Option Piece)
    (hv : ∀ q, v = some q → q.pos = (x, y)) :
    posConsistentB (gset g x y v) = true := by
  rw [posConsistentB_iff]
  intro x' y' p hq
  by_cases hr : inR x y
  · by_cases hne : (x, y) = (x', y')
    · injection hne with h1 h2
      subst h1
      subst h2
      rw [gget_gset_self hwf hr] at hq
      exact hv p hq
    · rw [gget_gset_ne g hne] at hq
      exact posConsistentB_spec hpc hq
  · rw [gset_neg g hr] at hq
    exact posConsistentB_spec hpc hq

/-- The speculative move application keeps the grid position-consistent
(the moved piece is stored with its position field set to the
destination). -/
theorem posConsistentB_simGrid {g : Grid} (hwf : WFGrid g)
    (hpc : posConsistentB g = true) (p : Piece) (s e : Int × Int) :
    posConsistentB (simGrid g p s e) = true := by
  unfold simGrid
  refine posConsistentB_gset (WFGrid_gset hwf e.1 e.2 _) ?_ s.1 s.2 none ?_
  · refine posConsistentB_gset hwf hpc e.1 e.2 _ ?_
    rintro q hq
    injection hq with hq2
    rw [← hq2]
  · rintro q hq
    cases hq

/-- A successful `move_piece` call, decomposed: a piece stands at the
origin, the destination is pseudo-legal, the speculative application
does not leave the mover in check, and the new grid is exactly that
speculative application. -/
theorem movePiece_true_grid (b : Board) (cur new : Int × Int)
    (h : (movePiece b cur new).1 = true) :
    ∃ piece, gget b.grid cur.1 cur.2 = some piece ∧ new ∈ getMoves piece b.grid ∧
      isColorInCheck (simGrid b.grid piece cur new) piece.color = false ∧
      (movePiece b cur new).2.grid = simGrid b.grid piece cur new := by
  unfold movePiece at h ⊢
  cases hq : gget b.grid cur.1 cur.2 with
  | none =>
    rw [hq] at h
    simp at h
  | some piece =>
    rw [hq] at h
    dsimp only at h ⊢
    by_cases hmem : new ∉ getMoves piece b.grid
    · rw [if_pos hmem] at h
      simp at h
    · rw [if_neg hmem] at h ⊢
      by_cases hchk : isColorInCheck (simGrid b.grid piece cur new) piece.color = true
      · rw [if_pos hchk] at h
        simp at h
      · rw [if_neg hchk] at h ⊢
        exact ⟨piece, rfl, not_not.mp hmem, by simpa using hchk, rfl⟩

/-- Boards reachable from the standard setup by successful `move_piece`
calls. -/
inductive MoveReach : Board → Prop where
  | start : MoveReach initialBoard
  | step (b : Board) (cur new : Int × Int) (b' : Board) :
      MoveReach b → movePiece b cur new = (true, b') → MoveReach b'

set_option maxRecDepth 100000 in
/-- Reachable boards stay well-formed and position-consistent. -/
theorem moveReach_invariant {b : Board} (h : MoveReach b) :
    WFGrid b.grid ∧ posConsistentB b.grid = true := by
  induction h with
  | start => exact ⟨by decide, rfl⟩
  | step b cur new b' hr hmv ih =>
    have h1 : (movePiece b cur new).1 = true := by rw [hmv]
    obtain ⟨piece, hq, hmem, hchk, hgrid⟩ := movePiece_true_grid b cur new h1
    rw [hmv] at hgrid
    rw [hgrid]
    unfold simGrid
    exact ⟨WFGrid_gset (WFGrid_gset ih.1 _ _ _) _ _ _,
      posConsistentB_simGrid ih.1 ih.2 piece cur new⟩

/-- Modelled from the spec's invariant: how many pieces of a kind and
colour the grid holds. -/
def countKind (g : Grid) (k : PieceKind) (c : PieceColor) : Nat :=
  range8.foldl (fun acc col =>
    range8.foldl (fun acc2 row =>
      match gget g col row with
      | some p => if p.kind = k ∧ p.color = c then acc2 + 1 else acc2
      | none => acc2) acc) 0

/-- The boards of a white-knight tour g1–h3–g5–e4–d6 that ends by
capturing the black king on e8: every `move_piece` call succeeds. -/
def c8b1 : Board := (movePiece initialBoard (6, 0) (7, 2)).2

/-- Second board of the king-capture tour. -/
def c8b2 : Board := (movePiece c8b1 (7, 2) (6, 4)).2

/-- Third board of the king-capture tour. -/
def c8b3 : Board := (movePiece c8b2 (6, 4) (4, 3)).2

/-- Fourth board of the king-capture tour. -/
def c8b4 : Board := (movePiece c8b3 (4, 3) (3, 5)).2

/-- Final board of the king-capture tour: the knight has taken the
black king. -/
def c8b5 : Board := (movePiece c8b4 (3, 5) (4, 7)).2

set_option maxRecDepth 1000000 in
/-- Counterexample to C8 as stated: a board reachable from the
standard setup by successful `move_piece` calls alone (no turn
alternation, which `move_piece` does not enforce) on which no black
king exists — the one-king-of-each-colour conjunct of the claimed
invariant fails, because a king's square is an ordinary pseudo-legal
capture destination. -/
theorem C8_king_capture_reachable :
    MoveReach c8b5 ∧ countKind c8b5.grid .king .black = 0 := by
  refine ⟨?_, rfl⟩
  exact MoveReach.step c8b4 (3, 5) (4, 7) c8b5
    (MoveReach.step c8b3 (4, 3) (3, 5) c8b4
      (MoveReach.step c8b2 (6, 4) (4, 3) c8b3
        (MoveReach.step c8b1 (7, 2) (6, 4) c8b2
          (MoveReach.step initialBoard (6, 0) (7, 2) c8b1
            MoveReach.start (Prod.ext rfl rfl))
          (Prod.ext rfl rfl))
        (Prod.ext rfl rfl))
      (Prod.ext rfl rfl))
    (Prod.ext rfl rfl)

/-! ### Restoration of the board by the search (C9) -/

/-- Overwriting a piece's position field with the value it already
holds is the identity. -/
theorem piece_pos_eta {p : Piece} {s : Int × Int} (h : p.pos = s) :
    { p with pos := s } = p := by
  cases p with
  | mk k c q =>
    cases h
    rfl

/-- The maximizing loop restores the board it was given, provided the
child search restores well-formed position-consistent boards: the
`set_position(start_pos)` revert writes back exactly the original
piece because, on a position-consistent board, the moved piece's
stored position already names its origin square. -/
theorem abLoopMax_board (f : Board → Score → Score → Score × Board)
    (hf : ∀ bb a bt, WFGrid bb.grid → posConsistentB bb.grid = true → (f bb a bt).2 = bb) :
    ∀ (ms : List Move) (b : Board) (me : Score) (best : Move) (al be : Score),
      WFGrid b.grid → posConsistentB b.grid = true →
      (abLoopMax f ms b me best al be).2 = b := by
  intro ms
  induction ms with
  | nil =>
    intro b me best al be hwf hpc
    rfl
  | cons m rest ih =>
    intro b me best al be hwf hpc
    unfold abLoopMax
    cases hp : gget b.grid m.1.1 m.1.2 with
    | none => exact ih b me best al be hwf hpc
    | some p =>
      simp only
      have hpp : { p with pos := m.1 } = p :=
        piece_pos_eta (by rw [posConsistentB_spec hpc hp])
      rw [hpp]
      have hb1 : (f { b with grid := simGrid b.grid p m.1 m.2 } al be).2 =
          { b with grid := simGrid b.grid p m.1 m.2 } :=
        hf _ _ _ (WFGrid_gset (WFGrid_gset hwf _ _ _) _ _ _)
          (posConsistentB_simGrid hwf hpc p m.1 m.2)
      rw [hb1]
      have hrev := revert_sim b.grid p m.1 m.2 hp
      simp only [hrev]
      split
      · rfl
      · exact ih b _ _ _ be hwf hpc

/-- The minimizing loop restores the board it was given, provided the
child search restores well-formed position-consistent boards. -/
theorem abLoopMin_board (f : Board → Score → Score → Score × Board)
    (hf : ∀ bb a bt, WFGrid bb.grid → posConsistentB bb.grid = true → (f bb a bt).2 = bb) :
    ∀ (ms : List Move) (b : Board) (me : Score) (best : Move) (al be : Score),
      WFGrid b.grid → posConsistentB b.grid = true →
      (abLoopMin f ms b me best al be).2 = b := by
  intro ms
  induction ms with
  | nil =>
    intro b me best al be hwf hpc
    rfl
  | cons m rest ih =>
    intro b me best al be hwf hpc
    unfold abLoopMin
    cases hp : gget b.grid m.1.1 m.1.2 with
    | none => exact ih b me best al be hwf hpc
    | some p =>
      simp only
      have hpp : { p with pos := m.1 } = p :=
        piece_pos_eta (by rw [posConsistentB_spec hpc hp])
      rw [hpp]
      have hb1 : (f { b with grid := simGrid b.grid p m.1 m.2 } al be).2 =
          { b with grid := simGrid b.grid p m.1 m.2 } :=
        hf _ _ _ (WFGrid_gset (WFGrid_gset hwf _ _ _) _ _ _)
          (posConsistentB_simGrid hwf hpc p m.1 m.2)
      rw [hb1]
      have hrev := revert_sim b.grid p m.1 m.2 hp
      simp only [hrev]
      split
      · rfl
      · exact ih b _ _ al _ hwf hpc

/-- `minmax` restores a well-formed position-consistent board exactly:
grid, every piece's stored position, the move log and the repetition
history are all as before. -/
theorem minmax_board (aiColor : PieceColor) :
    ∀ (d : Nat) (b : Board) (al be : Score) (maxi : Bool),
      WFGrid b.grid → posConsistentB b.grid = true →
      (minmax aiColor d b al be maxi).2 = b := by
  intro d
  induction d with
  | zero =>
    intro b al be maxi hwf hpc
    rfl
  | succ n ih =>
    intro b al be maxi hwf hpc
    rw [minmax]
    rw [getAllLegalMovesT_eq]
    simp only
    split
    · split <;> rfl
    · split
      · exact abLoopMax_board _ (fun bb a bt h1 h2 => ih bb a bt false h1 h2)
          _ _ _ _ _ _ hwf hpc
      · exact abLoopMin_board _ (fun bb a bt h1 h2 => ih bb a bt true h1 h2)
          _ _ _ _ _ _ hwf hpc

/-- A board whose only piece's stored position field disagrees with
its grid slot: a pawn stored in slot a2 whose position field says
d4. -/
def c9Board : Board :=
  { grid := gset (List.replicate 8 (List.replicate 8 none)) 0 1 (some ⟨.pawn, .white, (3, 3)⟩),
    moveHistory := [], position_history := [] }

set_option maxRecDepth 100000 in
/-- Counterexample to C9 as stated: on `c9Board` the search's revert
(`set_position(start_pos)` without saving the prior field value)
rewrites the pawn's stored position from d4 to its slot a2, so `minmax`
does not leave the board exactly as it was before the call. -/
theorem C9_minmax_not_restoring :
    (minmax .white 1 c9Board ⊥ ⊤ true).2 ≠ c9Board := by
  rw [show (1 : Nat) = 0 + 1 from rfl]
  rw [minmax]
  rw [getAllLegalMovesT_eq]
  dsimp only
  rw [show getAllLegalMoves c9Board.grid (plyColor PieceColor.white true) =
    [((0, 1), (3, 4))] from rfl]
  rw [List.mergeSort_singleton]
  decide

/-- C9, amended: on well-formed position-consistent boards (every
stored position field names its slot — true of every board the program
builds), `minmax`'s apply/revert pairs restore the board exactly —
grid contents, every piece's stored position field, move history and
repetition history — and the threaded `get_all_legal_moves` returns
its grid unchanged.  On boards whose position fields disagree with
their slots the revert's `set_position(start_pos)` overwrites the
field, so the unconditional claim fails (`C9_minmax_not_restoring`). -/
theorem C9_search_restores_board (aiColor : PieceColor) (d : Nat) (b : Board)
    (al be : Score) (maxi : Bool)
    (hwf : WFGrid b.grid) (hpc : posConsistentB b.grid = true) :
    (minmax aiColor d b al be maxi).2 = b ∧
    ∀ c : PieceColor, (getAllLegalMovesT b.grid c).2 = b.grid := by
  refine ⟨minmax_board aiColor d b al be maxi hwf hpc, fun c => ?lm⟩
  rw [getAllLegalMovesT_eq]

/-- The board for the C9 witness: the lone-pawn grid, consistent. -/
def c9WBoard : Board := { grid := c5Grid, moveHistory := [], position_history := [] }

set_option maxRecDepth 100000 in
/-- Witness for the amended C9: a concrete well-formed consistent
board on which a depth-1 search returns it unchanged. -/
theorem C9_search_restores_board_witness :
    WFGrid c9WBoard.grid ∧ posConsistentB c9WBoard.grid = true ∧
    (minmax .white 1 c9WBoard ⊥ ⊤ true).2 = c9WBoard := by
  exact ⟨by decide, rfl,
    (C9_search_restores_board .white 1 c9WBoard ⊥ ⊤ true (by decide) rfl).1⟩

/-- C8, amended: every board reachable from the standard 32-piece
setup by successful `move_piece` calls is position-consistent — every
occupant's stored position field equals the (column, row) of the grid
slot holding it, and consequently no piece value sits in two distinct
slots (so no two pieces share a square).  The exactly-one-king-of-each-
colour conjunct of the original claim is *not* an invariant at the
`move_piece` level: a king's square is an ordinary pseudo-legal capture
destination, and a successful `move_piece` sequence can capture a king
(`C8_king_capture_reachable`). -/
theorem C8_position_consistency_amended (b : Board) (h : MoveReach b) :
    posConsistentB b.grid = true ∧
    (∀ x y : Int, ∀ p : Piece, gget b.grid x y = some p → p.pos = (x, y)) ∧
    (∀ x y x' y' : Int, ∀ p : Piece,
      gget b.grid x y = some p → gget b.grid x' y' = some p → x = x' ∧ y = y') := by
  have hi := moveReach_invariant h
  refine ⟨hi.2, fun x y p hq => posConsistentB_spec hi.2 hq, ?_⟩
  intro x y x' y' p h1 h2
  have e1 := posConsistentB_spec hi.2 h1
  have e2 := posConsistentB_spec hi.2 h2
  rw [e1] at e2
  injection e2 with a b
  exact ⟨a, b⟩

/-- Witness for the amended C8 at the freshly set up board. -/
theorem C8_position_consistency_amended_witness :
    posConsistentB initialBoard.grid = true ∧
    (∀ x y : Int, ∀ p : Piece, gget initialBoard.grid x y = some p → p.pos = (x, y)) ∧
    (∀ x y x' y' : Int, ∀ p : Piece,
      gget initialBoard.grid x y = some p → gget initialBoard.grid x' y' = some p →
        x = x' ∧ y = y') :=
  C8_position_consistency_amended initialBoard MoveReach.start

/-! ### Alpha-beta equivalence (C1) -/

/-- The fail-soft alpha-beta contract of a search result `v` against
the true minimax value `F` in the window `(al, be)`: a value below the
window is an upper bound on `F`, a value above it a lower bound, and a
value inside it is exact. -/
def KM (v F al be : Score) : Prop :=
  (v < be → F ≤ v) ∧ (al < v → v ≤ F)

/-- An exact result satisfies the contract in any window. -/
theorem KM_of_eq {v F al be : Score} (h : v = F) : KM v F al be :=
  ⟨fun _ => le_of_eq h.symm, fun _ => le_of_eq h⟩

/-- Over the full window `(⊥, ⊤)` the contract forces exactness. -/
theorem KM_full_eq {v F : Score} (h : KM v F ⊥ ⊤) : v = F := by
  apply le_antisymm
  · by_cases hb : (⊥ : Score) < v
    · exact h.2 hb
    · rw [le_bot_iff.mp (not_lt.mp hb)]
      exact bot_le
  · by_cases ht : v < (⊤ : Score)
    · exact h.1 ht
    · rw [top_le_iff.mp (not_lt.mp ht)]
      exact le_top

/-- A running maximum is at most `c` iff the seed and every element
are. -/
theorem foldl_max_le_iff {β : Type _} (FC : β → Score) :
    ∀ (l : List β) (acc c : Score),
      l.foldl (fun a m => max a (FC m)) acc ≤ c ↔ acc ≤ c ∧ ∀ m ∈ l, FC m ≤ c := by
  intro l
  induction l with
  | nil => simp
  | cons m rest ih =>
    intro acc c
    rw [List.foldl_cons, ih, max_le_iff]
    simp only [List.mem_cons]
    constructor
    · rintro ⟨⟨h1, h2⟩, h3⟩
      exact ⟨h1, fun x hx => hx.elim (fun he => he ▸ h2) (h3 x)⟩
    · rintro ⟨h1, h2⟩
      exact ⟨⟨h1, h2 m (Or.inl rfl)⟩, fun x hx => h2 x (Or.inr hx)⟩

/-- `c` is at most a running maximum iff it is at most the seed or at
most some element. -/
theorem le_foldl_max_iff {β : Type _} (FC : β → Score) :
    ∀ (l : List β) (acc c : Score),
      c ≤ l.foldl (fun a m => max a (FC m)) acc ↔ c ≤ acc ∨ ∃ m ∈ l, c ≤ FC m := by
  intro l
  induction l with
  | nil => simp
  | cons m rest ih =>
    intro acc c
    rw [List.foldl_cons, ih, le_max_iff]
    simp only [List.mem_cons]
    constructor
    · rintro ((h | h) | ⟨x, hx, h⟩)
      · exact Or.inl h
      · exact Or.inr ⟨m, Or.inl rfl, h⟩
      · exact Or.inr ⟨x, Or.inr hx, h⟩
    · rintro (h | ⟨x, hx | hx, h⟩)
      · exact Or.inl (Or.inl h)
      · exact Or.inl (Or.inr (hx ▸ h))
      · exact Or.inr ⟨x, hx, h⟩

/-- A running minimum is at least `c` iff the seed and every element
are. -/
theorem le_foldl_min_iff {β : Type _} (FC : β → Score) :
    ∀ (l : List β) (acc c : Score),
      c ≤ l.foldl (fun a m => min a (FC m)) acc ↔ c ≤ acc ∧ ∀ m ∈ l, c ≤ FC m := by
  intro l
  induction l with
  | nil => simp
  | cons m rest ih =>
    intro acc c
    rw [List.foldl_cons, ih, le_min_iff]
    simp only [List.mem_cons]
    constructor
    · rintro ⟨⟨h1, h2⟩, h3⟩
      exact ⟨h1, fun x hx => hx.elim (fun he => he ▸ h2) (h3 x)⟩
    · rintro ⟨h1, h2⟩
      exact ⟨⟨h1, h2 m (Or.inl rfl)⟩, fun x hx => h2 x (Or.inr hx)⟩

/-- A running minimum is at most `c` iff the seed is, or some element
is. -/
theorem foldl_min_le_iff {β : Type _} (FC : β → Score) :
    ∀ (l : List β) (acc c : Score),
      l.foldl (fun a m => min a (FC m)) acc ≤ c ↔ acc ≤ c ∨ ∃ m ∈ l, FC m ≤ c := by
  intro l
  induction l with
  | nil => simp
  | cons m rest ih =>
    intro acc c
    rw [List.foldl_cons, ih, min_le_iff]
    simp only [List.mem_cons]
    constructor
    · rintro ((h | h) | ⟨x, hx, h⟩)
      · exact Or.inl h
      · exact Or.inr ⟨m, Or.inl rfl, h⟩
      · exact Or.inr ⟨x, Or.inr hx, h⟩
    · rintro (h | ⟨x, hx | hx, h⟩)
      · exact Or.inl (Or.inl h)
      · exact Or.inl (Or.inr (hx ▸ h))
      · exact Or.inr ⟨x, hx, h⟩

/-- A legal move starts from an occupied square of the right colour,
its destination is pseudo-legal, and its speculative application does
not leave the mover in check. -/
theorem mem_getAllLegalMoves {g : Grid} {c : PieceColor} {m : Move}
    (h : m ∈ getAllLegalMoves g c) :
    ∃ p, gget g m.1.1 m.1.2 = some p ∧ p.color = c ∧ m.2 ∈ getMoves p g ∧
      isColorInCheck (simGrid g p m.1 m.2) c = false := by
  unfold getAllLegalMoves at h
  rw [List.mem_flatMap] at h
  obtain ⟨col, _, h⟩ := h
  rw [List.mem_flatMap] at h
  obtain ⟨row, _, h⟩ := h
  unfold legalContrib at h
  cases hq : gget g col row with
  | none =>
    rw [hq] at h
    cases h
  | some p =>
    rw [hq] at h
    dsimp only at h
    by_cases hc : p.color = c
    · rw [if_pos hc] at h
      rw [List.mem_filterMap] at h
      obtain ⟨e, he, hsome⟩ := h
      by_cases hchk : ¬ isColorInCheck (simGrid g p (col, row) e) c = true
      · rw [if_pos hchk] at hsome
        have hm : m = ((col, row), e) := (Option.some.inj hsome).symm
        subst hm
        exact ⟨p, hq, hc, he, Bool.eq_false_iff.mpr hchk⟩
      · rw [if_neg hchk] at hsome
        cases hsome
    · rw [if_neg hc] at h
      cases h

/-- `applyB` at a move whose origin holds a piece. -/
theorem applyB_eq {b : Board} {m : Move} {p : Piece}
    (h : gget b.grid m.1.1 m.1.2 = some p) :
    applyB b m = { b with grid := simGrid b.grid p m.1 m.2 } := by
  unfold applyB
  rw [h]

/-- The maximizing loop meets the fail-soft contract: relative to the
window `(al0, be)` it entered with, its result bounds or equals the
running maximum of the true child values, provided each child search
meets the contract in every window it can be called with.  `al` is the
loop's current alpha, always `max al0 me`. -/
theorem abLoopMax_km (f : Board → Score → Score → Score × Board) (FC : Move → Score)
    (b : Board) (be : Score)
    (hwf : WFGrid b.grid) (hpc : posConsistentB b.grid = true)
    (hfb : ∀ bb a bt, WFGrid bb.grid → posConsistentB bb.grid = true → (f bb a bt).2 = bb) :
    ∀ (ms : List Move),
      (∀ m ∈ ms, ∃ p, gget b.grid m.1.1 m.1.2 = some p ∧
        ∀ a : Score, a < be →
          KM (f { b with grid := simGrid b.grid p m.1 m.2 } a be).1 (FC m) a be) →
      ∀ (me : Score) (bm : Move) (al al0 : Score),
        al = max al0 me → al < be →
        KM ((abLoopMax f ms b me bm al be).1.1)
          (ms.foldl (fun acc m => max acc (FC m)) me) al0 be := by
  intro ms
  induction ms with
  | nil =>
    intro _ me bm al al0 hal hlt
    exact KM_of_eq rfl
  | cons m rest ih =>
    intro hmv me bm al al0 hal hlt
    obtain ⟨p, hq, hkm⟩ := hmv m (List.mem_cons_self m rest)
    have hrest := fun m' hm' => hmv m' (List.mem_cons_of_mem m hm')
    have hme_al : me ≤ al := by
      rw [hal]
      exact le_max_right al0 me
    unfold abLoopMax
    rw [hq]
    dsimp only
    have hb1w : WFGrid (simGrid b.grid p m.1 m.2) := by
      unfold simGrid
      exact WFGrid_gset (WFGrid_gset hwf _ _ _) _ _ _
    have hb1c : posConsistentB (simGrid b.grid p m.1 m.2) = true :=
      posConsistentB_simGrid hwf hpc p m.1 m.2
    rw [hfb _ _ _ hb1w hb1c]
    have hpp : { p with pos := m.1 } = p :=
      piece_pos_eta (by rw [posConsistentB_spec hpc hq])
    rw [hpp, revert_sim b.grid p m.1 m.2 hq]
    have hkm1 := hkm al hlt
    rw [List.foldl_cons]
    by_cases hbr : be ≤ max al (f { b with grid := simGrid b.grid p m.1 m.2 } al be).1
    · rw [if_pos hbr]
      have hbw : be ≤ (f { b with grid := simGrid b.grid p m.1 m.2 } al be).1 :=
        (le_max_iff.mp hbr).resolve_left (not_le.mpr hlt)
      have hmew : me < (f { b with grid := simGrid b.grid p m.1 m.2 } al be).1 :=
        lt_of_le_of_lt hme_al (lt_of_lt_of_le hlt hbw)
      rw [if_pos hmew]
      dsimp only
      constructor
      · intro hlt2
        exact absurd hlt2 (not_lt.mpr hbw)
      · intro _
        refine le_trans (hkm1.2 (lt_of_lt_of_le hlt hbw)) ?_
        exact (le_foldl_max_iff FC rest (max me (FC m)) (FC m)).mpr
          (Or.inl (le_max_right _ _))
    · rw [if_neg hbr]
      push_neg at hbr
      have hwlt : (f { b with grid := simGrid b.grid p m.1 m.2 } al be).1 < be :=
        lt_of_le_of_lt (le_max_right al _) hbr
      have hWw : FC m ≤ (f { b with grid := simGrid b.grid p m.1 m.2 } al be).1 :=
        hkm1.1 hwlt
      by_cases hup : me < (f { b with grid := simGrid b.grid p m.1 m.2 } al be).1
      · rw [if_pos hup]
        dsimp only
        have hal' : max al (f { b with grid := simGrid b.grid p m.1 m.2 } al be).1 =
            max al0 (f { b with grid := simGrid b.grid p m.1 m.2 } al be).1 := by
          have hup' := hup
          rw [hal] at hup'
          rw [hal, max_assoc, max_eq_right (le_of_lt hup')]
        have hrec := ih hrest (f { b with grid := simGrid b.grid p m.1 m.2 } al be).1 m
          (max al (f { b with grid := simGrid b.grid p m.1 m.2 } al be).1) al0 hal' hbr
        constructor
        · intro hVbe
          have h1 := (foldl_max_le_iff FC rest _ _).mp (hrec.1 hVbe)
          refine (foldl_max_le_iff FC rest _ _).mpr ⟨max_le ?_ ?_, h1.2⟩
          · exact le_trans (le_of_lt hup) h1.1
          · exact le_trans hWw h1.1
        · intro hal0V
          have h1 := (le_foldl_max_iff FC rest _ _).mp (hrec.2 hal0V)
          refine (le_foldl_max_iff FC rest _ _).mpr ?_
          rcases h1 with hVw | ⟨x, hx, hVx⟩
          · by_cases halw : al < (f { b with grid := simGrid b.grid p m.1 m.2 } al be).1
            · exact Or.inl (le_trans (le_trans hVw (hkm1.2 halw)) (le_max_right _ _))
            · rcases max_choice al0 me with hch | hch
              · rw [← hal] at hch
                exact absurd (lt_of_lt_of_le hal0V (le_trans hVw (hch ▸ not_lt.mp halw)))
                  (lt_irrefl al0)
              · have : (f { b with grid := simGrid b.grid p m.1 m.2 } al be).1 ≤ me := by
                  rw [← hal] at hch
                  exact le_trans (not_lt.mp halw) (le_of_eq hch)
                exact absurd (lt_of_lt_of_le hup this) (lt_irrefl _)
          · exact Or.inr ⟨x, hx, hVx⟩
      · rw [if_neg hup]
        dsimp only
        have hwme : (f { b with grid := simGrid b.grid p m.1 m.2 } al be).1 ≤ me :=
          not_lt.mp hup
        have hal' : max al (f { b with grid := simGrid b.grid p m.1 m.2 } al be).1 = al :=
          max_eq_left (le_trans hwme hme_al)
        rw [hal']
        have hrec := ih hrest me bm al al0 hal hlt
        constructor
        · intro hVbe
          have h1 := (foldl_max_le_iff FC rest _ _).mp (hrec.1 hVbe)
          refine (foldl_max_le_iff FC rest _ _).mpr ⟨max_le h1.1 ?_, h1.2⟩
          exact le_trans hWw (le_trans hwme h1.1)
        · intro hal0V
          have h1 := (le_foldl_max_iff FC rest _ _).mp (hrec.2 hal0V)
          refine (le_foldl_max_iff FC rest _ _).mpr ?_
          rcases h1 with hVme | ⟨x, hx, hVx⟩
          · exact Or.inl (le_trans hVme (le_max_left _ _))
          · exact Or.inr ⟨x, hx, hVx⟩

/-- The minimizing loop meets the fail-soft contract, dually to
`abLoopMax_km`: `be` is the loop's current beta, always `min be0 me`. -/
theorem abLoopMin_km (f : Board → Score → Score → Score × Board) (FC : Move → Score)
    (b : Board) (al : Score)
    (hwf : WFGrid b.grid) (hpc : posConsistentB b.grid = true)
    (hfb : ∀ bb a bt, WFGrid bb.grid → posConsistentB bb.grid = true → (f bb a bt).2 = bb) :
    ∀ (ms : List Move),
      (∀ m ∈ ms, ∃ p, gget b.grid m.1.1 m.1.2 = some p ∧
        ∀ bt : Score, al < bt →
          KM (f { b with grid := simGrid b.grid p m.1 m.2 } al bt).1 (FC m) al bt) →
      ∀ (me : Score) (bm : Move) (be be0 : Score),
        be = min be0 me → al < be →
        KM ((abLoopMin f ms b me bm al be).1.1)
          (ms.foldl (fun acc m => min acc (FC m)) me) al be0 := by
  intro ms
  induction ms with
  | nil =>
    intro _ me bm be be0 hbe hlt
    exact KM_of_eq rfl
  | cons m rest ih =>
    intro hmv me bm be be0 hbe hlt
    obtain ⟨p, hq, hkm⟩ := hmv m (List.mem_cons_self m rest)
    have hrest := fun m' hm' => hmv m' (List.mem_cons_of_mem m hm')
    have hbe_me : be ≤ me := by
      rw [hbe]
      exact min_le_right be0 me
    unfold abLoopMin
    rw [hq]
    dsimp only
    have hb1w : WFGrid (simGrid b.grid p m.1 m.2) := by
      unfold simGrid
      exact WFGrid_gset (WFGrid_gset hwf _ _ _) _ _ _
    have hb1c : posConsistentB (simGrid b.grid p m.1 m.2) = true :=
      posConsistentB_simGrid hwf hpc p m.1 m.2
    rw [hfb _ _ _ hb1w hb1c]
    have hpp : { p with pos := m.1 } = p :=
      piece_pos_eta (by rw [posConsistentB_spec hpc hq])
    rw [hpp, revert_sim b.grid p m.1 m.2 hq]
    have hkm1 := hkm be hlt
    rw [List.foldl_cons]
    by_cases hbr : min be (f { b with grid := simGrid b.grid p m.1 m.2 } al be).1 ≤ al
    · rw [if_pos hbr]
      have hbw : (f { b with grid := simGrid b.grid p m.1 m.2 } al be).1 ≤ al :=
        (min_le_iff.mp hbr).resolve_left (not_le.mpr hlt)
      have hmew : (f { b with grid := simGrid b.grid p m.1 m.2 } al be).1 < me :=
        lt_of_lt_of_le (lt_of_le_of_lt hbw hlt) hbe_me
      rw [if_pos hmew]
      dsimp only
      constructor
      · intro _
        refine le_trans ?_ (hkm1.1 (lt_of_le_of_lt hbw hlt))
        exact (foldl_min_le_iff FC rest (min me (FC m)) (FC m)).mpr
          (Or.inl (min_le_right _ _))
      · intro hlt2
        exact absurd hlt2 (not_lt.mpr hbw)
    · rw [if_neg hbr]
      push_neg at hbr
      have halw : al < (f { b with grid := simGrid b.grid p m.1 m.2 } al be).1 :=
        lt_of_lt_of_le hbr (min_le_right be _)
      have hwW : (f { b with grid := simGrid b.grid p m.1 m.2 } al be).1 ≤ FC m :=
        hkm1.2 halw
      by_cases hup : (f { b with grid := simGrid b.grid p m.1 m.2 } al be).1 < me
      · rw [if_pos hup]
        dsimp only
        have hbe' : min be (f { b with grid := simGrid b.grid p m.1 m.2 } al be).1 =
            min be0 (f { b with grid := simGrid b.grid p m.1 m.2 } al be).1 := by
          have hup' := hup
          rw [hbe] at hup'
          rw [hbe, min_assoc, min_eq_right (le_of_lt hup')]
        have hrec := ih hrest (f { b with grid := simGrid b.grid p m.1 m.2 } al be).1 m
          (min be (f { b with grid := simGrid b.grid p m.1 m.2 } al be).1) be0 hbe' hbr
        constructor
        · intro hVbe
          have h1 := (foldl_min_le_iff FC rest _ _).mp (hrec.1 hVbe)
          refine (foldl_min_le_iff FC rest _ _).mpr ?_
          rcases h1 with hwV | ⟨x, hx, hVx⟩
          · by_cases hwbe : (f { b with grid := simGrid b.grid p m.1 m.2 } al be).1 < be
            · exact Or.inl (le_trans (min_le_of_right_le (le_trans (hkm1.1 hwbe) hwV)) (le_refl _))
            · rcases min_choice be0 me with hch | hch
              · rw [← hbe] at hch
                exact absurd (lt_of_le_of_lt (le_trans (hch ▸ not_lt.mp hwbe) hwV) hVbe)
                  (lt_irrefl _)
              · have : me ≤ (f { b with grid := simGrid b.grid p m.1 m.2 } al be).1 := by
                  rw [← hbe] at hch
                  exact le_trans (le_of_eq hch.symm) (not_lt.mp hwbe)
                exact absurd (lt_of_le_of_lt this hup) (lt_irrefl _)
          · exact Or.inr ⟨x, hx, hVx⟩
        · intro halV
          have h1 := (le_foldl_min_iff FC rest _ _).mp (hrec.2 halV)
          refine (le_foldl_min_iff FC rest _ _).mpr ⟨le_min ?_ ?_, h1.2⟩
          · exact le_trans h1.1 (le_of_lt hup)
          · exact le_trans h1.1 hwW
      · rw [if_neg hup]
        dsimp only
        have hmew : me ≤ (f { b with grid := simGrid b.grid p m.1 m.2 } al be).1 :=
          not_lt.mp hup
        have hbe' : min be (f { b with grid := simGrid b.grid p m.1 m.2 } al be).1 = be :=
          min_eq_left (le_trans hbe_me hmew)
        rw [hbe']
        have hrec := ih hrest me bm be be0 hbe hlt
        constructor
        · intro hVbe
          have h1 := (foldl_min_le_iff FC rest _ _).mp (hrec.1 hVbe)
          refine (foldl_min_le_iff FC rest _ _).mpr ?_
          rcases h1 with hmeV | ⟨x, hx, hVx⟩
          · exact Or.inl (le_trans (min_le_left _ _) hmeV)
          · exact Or.inr ⟨x, hx, hVx⟩
        · intro halV
          have h1 := (le_foldl_min_iff FC rest _ _).mp (hrec.2 halV)
          refine (le_foldl_min_iff FC rest _ _).mpr ⟨le_min h1.1 ?_, h1.2⟩
          exact le_trans h1.1 (le_trans hmew hwW)

/-- `minmax` meets the fail-soft alpha-beta contract against the
unpruned full-width minimax, at every depth, window and side, on
well-formed position-consistent boards. -/
theorem minmax_km (aiColor : PieceColor) :
    ∀ (d : Nat) (b : Board), WFGrid b.grid → posConsistentB b.grid = true →
      ∀ (al be : Score), al < be → ∀ (maxi : Bool),
        KM ((minmax aiColor d b al be maxi).1.1) (fullMinimax aiColor d b maxi) al be := by
  intro d
  induction d with
  | zero =>
    intro b _ _ al be _ maxi
    exact KM_of_eq rfl
  | succ n ih =>
    intro b hwf hpc al be hlt maxi
    rw [minmax, fullMinimax, getAllLegalMovesT_eq]
    dsimp only
    cases maxi with
    | true =>
      by_cases hlm : getAllLegalMoves b.grid (plyColor aiColor true) = []
      · rw [if_pos hlm, if_pos hlm]
        by_cases hchk : isColorInCheck b.grid (plyColor aiColor true) = true
        · rw [if_pos hchk, if_pos hchk]
          exact KM_of_eq rfl
        · rw [if_neg hchk, if_neg hchk]
          exact KM_of_eq rfl
      · rw [if_neg hlm, if_neg hlm]
        try simp only [reduceIte]
        have hperm := List.mergeSort_perm (getAllLegalMoves b.grid (plyColor aiColor true))
          (fun m1 m2 => decide (scoreMove b.grid m2 ≤ scoreMove b.grid m1))
        have hfold : (List.mergeSort (getAllLegalMoves b.grid (plyColor aiColor true))
              (fun m1 m2 => decide (scoreMove b.grid m2 ≤ scoreMove b.grid m1))).foldl
              (fun acc m => max acc (fullMinimax aiColor n (applyB b m) false)) ⊥ =
            (getAllLegalMoves b.grid (plyColor aiColor true)).foldl
              (fun acc m => max acc (fullMinimax aiColor n (applyB b m) false)) ⊥ :=
          @List.Perm.foldl_eq Move Score
            (fun acc m => max acc (fullMinimax aiColor n (applyB b m) false))
            _ _ ⟨fun a x y => sup_right_comm _ _ _⟩ hperm ⊥
        rw [← hfold]
        have hmoves : ∀ m ∈ List.mergeSort (getAllLegalMoves b.grid (plyColor aiColor true))
            (fun m1 m2 => decide (scoreMove b.grid m2 ≤ scoreMove b.grid m1)),
            ∃ p, gget b.grid m.1.1 m.1.2 = some p ∧
              ∀ a : Score, a < be →
                KM ((fun bb a bt => ((minmax aiColor n bb a bt false).1.1,
                    (minmax aiColor n bb a bt false).2))
                  { b with grid := simGrid b.grid p m.1 m.2 } a be).1
                  ((fun m => fullMinimax aiColor n (applyB b m) false) m) a be := by
          intro m hm
          have hm2 := List.mem_mergeSort.mp hm
          obtain ⟨p, hq, _, _, _⟩ := mem_getAllLegalMoves hm2
          refine ⟨p, hq, fun a ha => ?_⟩
          have hb1w : WFGrid (simGrid b.grid p m.1 m.2) := by
            unfold simGrid
            exact WFGrid_gset (WFGrid_gset hwf _ _ _) _ _ _
          have hb1c : posConsistentB (simGrid b.grid p m.1 m.2) = true :=
            posConsistentB_simGrid hwf hpc p m.1 m.2
          dsimp only
          rw [applyB_eq hq]
          exact ih { b with grid := simGrid b.grid p m.1 m.2 } hb1w hb1c a be ha false
        exact abLoopMax_km
          (fun bb a bt => ((minmax aiColor n bb a bt false).1.1, (minmax aiColor n bb a bt false).2))
          (fun m => fullMinimax aiColor n (applyB b m) false) b be hwf hpc
          (fun bb a bt h1 h2 => minmax_board aiColor n bb a bt false h1 h2)
          (List.mergeSort (getAllLegalMoves b.grid (plyColor aiColor true))
            (fun m1 m2 => decide (scoreMove b.grid m2 ≤ scoreMove b.grid m1))) hmoves
          ⊥ (List.mergeSort (getAllLegalMoves b.grid (plyColor aiColor true))
            (fun m1 m2 => decide (scoreMove b.grid m2 ≤ scoreMove b.grid m1))).headI
          al al (max_eq_left bot_le).symm hlt
    | false =>
      by_cases hlm : getAllLegalMoves b.grid (plyColor aiColor false) = []
      · rw [if_pos hlm, if_pos hlm]
        by_cases hchk : isColorInCheck b.grid (plyColor aiColor false) = true
        · rw [if_pos hchk, if_pos hchk]
          exact KM_of_eq rfl
        · rw [if_neg hchk, if_neg hchk]
          exact KM_of_eq rfl
      · rw [if_neg hlm, if_neg hlm]
        try simp only [reduceIte]
        have hperm := List.mergeSort_perm (getAllLegalMoves b.grid (plyColor aiColor false))
          (fun m1 m2 => decide (scoreMove b.grid m2 ≤ scoreMove b.grid m1))
        have hfold : (List.mergeSort (getAllLegalMoves b.grid (plyColor aiColor false))
              (fun m1 m2 => decide (scoreMove b.grid m2 ≤ scoreMove b.grid m1))).foldl
              (fun acc m => min acc (fullMinimax aiColor n (applyB b m) true)) ⊤ =
            (getAllLegalMoves b.grid (plyColor aiColor false)).foldl
              (fun acc m => min acc (fullMinimax aiColor n (applyB b m) true)) ⊤ :=
          @List.Perm.foldl_eq Move Score
            (fun acc m => min acc (fullMinimax aiColor n (applyB b m) true))
            _ _ ⟨fun a x y => inf_right_comm _ _ _⟩ hperm ⊤
        rw [← hfold]
        have hmoves : ∀ m ∈ List.mergeSort (getAllLegalMoves b.grid (plyColor aiColor false))
            (fun m1 m2 => decide (scoreMove b.grid m2 ≤ scoreMove b.grid m1)),
            ∃ p, gget b.grid m.1.1 m.1.2 = some p ∧
              ∀ bt : Score, al < bt →
                KM ((fun bb a bt => ((minmax aiColor n bb a bt true).1.1,
                    (minmax aiColor n bb a bt true).2))
                  { b with grid := simGrid b.grid p m.1 m.2 } al bt).1
                  ((fun m => fullMinimax aiColor n (applyB b m) true) m) al bt := by
          intro m hm
          have hm2 := List.mem_mergeSort.mp hm
          obtain ⟨p, hq, _, _, _⟩ := mem_getAllLegalMoves hm2
          refine ⟨p, hq, fun bt hb => ?_⟩
          have hb1w : WFGrid (simGrid b.grid p m.1 m.2) := by
            unfold simGrid
            exact WFGrid_gset (WFGrid_gset hwf _ _ _) _ _ _
          have hb1c : posConsistentB (simGrid b.grid p m.1 m.2) = true :=
            posConsistentB_simGrid hwf hpc p m.1 m.2
          dsimp only
          rw [applyB_eq hq]
          exact ih { b with grid := simGrid b.grid p m.1 m.2 } hb1w hb1c al bt hb true
        exact abLoopMin_km
          (fun bb a bt => ((minmax aiColor n bb a bt true).1.1, (minmax aiColor n bb a bt true).2))
          (fun m => fullMinimax aiColor n (applyB b m) true) b al hwf hpc
          (fun bb a bt h1 h2 => minmax_board aiColor n bb a bt true h1 h2)
          (List.mergeSort (getAllLegalMoves b.grid (plyColor aiColor false))
            (fun m1 m2 => decide (scoreMove b.grid m2 ≤ scoreMove b.grid m1))) hmoves
          ⊤ (List.mergeSort (getAllLegalMoves b.grid (plyColor aiColor false))
            (fun m1 m2 => decide (scoreMove b.grid m2 ≤ scoreMove b.grid m1))).headI
          be be (min_eq_left le_top).symm hlt

/-- At the full upper window (`beta = ⊤`, alpha equal to the running
maximum, as at the root), the maximizing loop's best move attains the
returned value — unless no child ever improved on the seed, in which
case the seed value and default move are returned and every child's
true value is at most the seed. -/
theorem abLoopMax_attain (f : Board → Score → Score → Score × Board) (FC : Move → Score)
    (b : Board)
    (hwf : WFGrid b.grid) (hpc : posConsistentB b.grid = true)
    (hfb : ∀ bb a bt, WFGrid bb.grid → posConsistentB bb.grid = true → (f bb a bt).2 = bb) :
    ∀ (ms : List Move),
      (∀ m ∈ ms, ∃ p, gget b.grid m.1.1 m.1.2 = some p ∧
        ∀ a : Score, a < ⊤ →
          KM (f { b with grid := simGrid b.grid p m.1 m.2 } a ⊤).1 (FC m) a ⊤) →
      ∀ (me : Score) (bm : Move), me < ⊤ →
        FC ((abLoopMax f ms b me bm me ⊤).1.2) = (abLoopMax f ms b me bm me ⊤).1.1 ∨
        ((abLoopMax f ms b me bm me ⊤).1.1 = me ∧ (abLoopMax f ms b me bm me ⊤).1.2 = bm ∧
          ∀ m ∈ ms, FC m ≤ me) := by
  intro ms
  induction ms with
  | nil =>
    intro _ me bm _
    right
    exact ⟨rfl, rfl, fun m hm => absurd hm (List.not_mem_nil m)⟩
  | cons m rest ih =>
    intro hmv me bm hme
    obtain ⟨p, hq, hkm⟩ := hmv m (List.mem_cons_self m rest)
    have hrest := fun m' hm' => hmv m' (List.mem_cons_of_mem m hm')
    unfold abLoopMax
    rw [hq]
    dsimp only
    have hb1w : WFGrid (simGrid b.grid p m.1 m.2) := by
      unfold simGrid
      exact WFGrid_gset (WFGrid_gset hwf _ _ _) _ _ _
    have hb1c : posConsistentB (simGrid b.grid p m.1 m.2) = true :=
      posConsistentB_simGrid hwf hpc p m.1 m.2
    rw [hfb _ _ _ hb1w hb1c]
    have hpp : { p with pos := m.1 } = p :=
      piece_pos_eta (by rw [posConsistentB_spec hpc hq])
    rw [hpp, revert_sim b.grid p m.1 m.2 hq]
    have hkm1 := hkm me hme
    by_cases hbr : (⊤ : Score) ≤ max me (f { b with grid := simGrid b.grid p m.1 m.2 } me ⊤).1
    · rw [if_pos hbr]
      have hw : (f { b with grid := simGrid b.grid p m.1 m.2 } me ⊤).1 = ⊤ :=
        top_le_iff.mp ((le_max_iff.mp hbr).resolve_left (not_le.mpr hme))
      have hup : me < (f { b with grid := simGrid b.grid p m.1 m.2 } me ⊤).1 := by
        rw [hw]
        exact hme
      rw [if_pos hup]
      dsimp only
      left
      refine le_antisymm ?_ (hkm1.2 hup)
      rw [hw]
      exact le_top
    · rw [if_neg hbr]
      push_neg at hbr
      have hwlt : (f { b with grid := simGrid b.grid p m.1 m.2 } me ⊤).1 < ⊤ :=
        lt_of_le_of_lt (le_max_right me _) hbr
      have hXc : FC m ≤ (f { b with grid := simGrid b.grid p m.1 m.2 } me ⊤).1 :=
        hkm1.1 hwlt
      by_cases hup : me < (f { b with grid := simGrid b.grid p m.1 m.2 } me ⊤).1
      · rw [if_pos hup]
        dsimp only
        have hFCm : FC m = (f { b with grid := simGrid b.grid p m.1 m.2 } me ⊤).1 :=
          le_antisymm hXc (hkm1.2 hup)
        rw [max_eq_right (le_of_lt hup)]
        rcases ih hrest (f { b with grid := simGrid b.grid p m.1 m.2 } me ⊤).1 m hwlt with
          h | ⟨h1, h2, _⟩
        · exact Or.inl h
        · left
          rw [h2, h1]
          exact hFCm
      · rw [if_neg hup]
        dsimp only
        have hwme : (f { b with grid := simGrid b.grid p m.1 m.2 } me ⊤).1 ≤ me :=
          not_lt.mp hup
        rw [max_eq_left hwme]
        rcases ih hrest me bm hme with h | ⟨h1, h2, h3⟩
        · exact Or.inl h
        · right
          refine ⟨h1, h2, fun m' hm' => ?_⟩
          rcases List.mem_cons.mp hm' with rfl | hmem
          · exact le_trans hXc hwme
          · exact h3 m' hmem

/-- Dual of `abLoopMax_attain` for the minimizing loop at the full
lower window (`alpha = ⊥`, beta equal to the running minimum). -/
theorem abLoopMin_attain (f : Board → Score → Score → Score × Board) (FC : Move → Score)
    (b : Board)
    (hwf : WFGrid b.grid) (hpc : posConsistentB b.grid = true)
    (hfb : ∀ bb a bt, WFGrid bb.grid → posConsistentB bb.grid = true → (f bb a bt).2 = bb) :
    ∀ (ms : List Move),
      (∀ m ∈ ms, ∃ p, gget b.grid m.1.1 m.1.2 = some p ∧
        ∀ bt : Score, (⊥ : Score) < bt →
          KM (f { b with grid := simGrid b.grid p m.1 m.2 } ⊥ bt).1 (FC m) ⊥ bt) →
      ∀ (me : Score) (bm : Move), (⊥ : Score) < me →
        FC ((abLoopMin f ms b me bm ⊥ me).1.2) = (abLoopMin f ms b me bm ⊥ me).1.1 ∨
        ((abLoopMin f ms b me bm ⊥ me).1.1 = me ∧ (abLoopMin f ms b me bm ⊥ me).1.2 = bm ∧
          ∀ m ∈ ms, me ≤ FC m) := by
  intro ms
  induction ms with
  | nil =>
    intro _ me bm _
    right
    exact ⟨rfl, rfl, fun m hm => absurd hm (List.not_mem_nil m)⟩
  | cons m rest ih =>
    intro hmv me bm hme
    obtain ⟨p, hq, hkm⟩ := hmv m (List.mem_cons_self m rest)
    have hrest := fun m' hm' => hmv m' (List.mem_cons_of_mem m hm')
    unfold abLoopMin
    rw [hq]
    dsimp only
    have hb1w : WFGrid (simGrid b.grid p m.1 m.2) := by
      unfold simGrid
      exact WFGrid_gset (WFGrid_gset hwf _ _ _) _ _ _
    have hb1c : posConsistentB (simGrid b.grid p m.1 m.2) = true :=
      posConsistentB_simGrid hwf hpc p m.1 m.2
    rw [hfb _ _ _ hb1w hb1c]
    have hpp : { p with pos := m.1 } = p :=
      piece_pos_eta (by rw [posConsistentB_spec hpc hq])
    rw [hpp, revert_sim b.grid p m.1 m.2 hq]
    have hkm1 := hkm me hme
    by_cases hbr : min me (f { b with grid := simGrid b.grid p m.1 m.2 } ⊥ me).1 ≤ (⊥ : Score)
    · rw [if_pos hbr]
      have hw : (f { b with grid := simGrid b.grid p m.1 m.2 } ⊥ me).1 = ⊥ :=
        le_bot_iff.mp ((min_le_iff.mp hbr).resolve_left (not_le.mpr hme))
      have hup : (f { b with grid := simGrid b.grid p m.1 m.2 } ⊥ me).1 < me := by
        rw [hw]
        exact hme
      rw [if_pos hup]
      dsimp only
      left
      refine le_antisymm (hkm1.1 hup) ?_
      rw [hw]
      exact bot_le
    · rw [if_neg hbr]
      push_neg at hbr
      have hwgt : (⊥ : Score) < (f { b with grid := simGrid b.grid p m.1 m.2 } ⊥ me).1 :=
        lt_of_lt_of_le hbr (min_le_right me _)
      have hYc : (f { b with grid := simGrid b.grid p m.1 m.2 } ⊥ me).1 ≤ FC m :=
        hkm1.2 hwgt
      by_cases hup : (f { b with grid := simGrid b.grid p m.1 m.2 } ⊥ me).1 < me
      · rw [if_pos hup]
        dsimp only
        have hFCm : FC m = (f { b with grid := simGrid b.grid p m.1 m.2 } ⊥ me).1 :=
          le_antisymm (hkm1.1 hup) hYc
        rw [min_eq_right (le_of_lt hup)]
        rcases ih hrest (f { b with grid := simGrid b.grid p m.1 m.2 } ⊥ me).1 m hwgt with
          h | ⟨h1, h2, _⟩
        · exact Or.inl h
        · left
          rw [h2, h1]
          exact hFCm
      · rw [if_neg hup]
        dsimp only
        have hmew : me ≤ (f { b with grid := simGrid b.grid p m.1 m.2 } ⊥ me).1 :=
          not_lt.mp hup
        rw [min_eq_left hmew]
        rcases ih hrest me bm hme with h | ⟨h1, h2, h3⟩
        · exact Or.inl h
        · right
          refine ⟨h1, h2, fun m' hm' => ?_⟩
          rcases List.mem_cons.mp hm' with rfl | hmem
          · exact le_trans hmew hYc
          · exact h3 m' hmem

set_option maxRecDepth 4000 in
set_option maxHeartbeats 1000000 in
/-- C1: on a well-formed position-consistent board, at every depth
`0 < d ≤ 3` (the bound of the claim; the proof is depth-independent),
the score of the alpha-beta `minmax` called with the full window
`alpha = -inf, beta = +inf` equals the score of the unpruned
full-width minimax of the same depth on the same position, for either
side to move, and whenever a move is returned its own full-width value
is exactly that score — pruning never changes the value or the
attainment of the chosen move at the root. -/
theorem C1_alphabeta_equals_minimax (aiColor : PieceColor) (d : Nat) (b : Board) (maxi : Bool)
    (hd : 0 < d) (hd3 : d ≤ 3)
    (hwf : WFGrid b.grid) (hpc : posConsistentB b.grid = true) :
    (minmax aiColor d b ⊥ ⊤ maxi).1.1 = fullMinimax aiColor d b maxi ∧
    ∀ bm, (minmax aiColor d b ⊥ ⊤ maxi).1.2 = some bm →
      fullMinimax aiColor (d - 1) (applyB b bm) (!maxi) = (minmax aiColor d b ⊥ ⊤ maxi).1.1 := by
  have hval : (minmax aiColor d b ⊥ ⊤ maxi).1.1 = fullMinimax aiColor d b maxi :=
    KM_full_eq (minmax_km aiColor d b hwf hpc ⊥ ⊤ bot_lt_top maxi)
  refine ⟨hval, ?_⟩
  cases d with
  | zero => exact (Nat.lt_irrefl 0 hd).elim
  | succ n =>
    intro bm hbm
    simp only [Nat.add_sub_cancel]
    cases maxi with
    | true =>
      by_cases hlm : getAllLegalMoves b.grid (plyColor aiColor true) = []
      · have hmove : (minmax aiColor (n + 1) b ⊥ ⊤ true).1.2 = none := by
          rw [minmax, getAllLegalMovesT_eq]
          dsimp only
          rw [if_pos hlm]
          by_cases hchk : isColorInCheck b.grid (plyColor aiColor true) = true
          · rw [if_pos hchk]
          · rw [if_neg hchk]
        rw [hmove] at hbm
        cases hbm
      · have hmove : (minmax aiColor (n + 1) b ⊥ ⊤ true).1.2 = some ((abLoopMax
            (fun bb a bt => ((minmax aiColor n bb a bt false).1.1, (minmax aiColor n bb a bt false).2))
            (List.mergeSort (getAllLegalMoves b.grid (plyColor aiColor true))
              (fun m1 m2 => decide (scoreMove b.grid m2 ≤ scoreMove b.grid m1)))
            b ⊥ (List.mergeSort (getAllLegalMoves b.grid (plyColor aiColor true))
              (fun m1 m2 => decide (scoreMove b.grid m2 ≤ scoreMove b.grid m1))).headI
            ⊥ ⊤).1.2) := by
          rw [minmax, getAllLegalMovesT_eq]
          dsimp only
          rw [if_neg hlm]
          try simp only [reduceIte]
          try rfl
        have hv : (minmax aiColor (n + 1) b ⊥ ⊤ true).1.1 = (abLoopMax
            (fun bb a bt => ((minmax aiColor n bb a bt false).1.1, (minmax aiColor n bb a bt false).2))
            (List.mergeSort (getAllLegalMoves b.grid (plyColor aiColor true))
              (fun m1 m2 => decide (scoreMove b.grid m2 ≤ scoreMove b.grid m1)))
            b ⊥ (List.mergeSort (getAllLegalMoves b.grid (plyColor aiColor true))
              (fun m1 m2 => decide (scoreMove b.grid m2 ≤ scoreMove b.grid m1))).headI
            ⊥ ⊤).1.1 := by
          rw [minmax, getAllLegalMovesT_eq]
          dsimp only
          rw [if_neg hlm]
          try simp only [reduceIte]
          try rfl
        have hbm2 : (abLoopMax
            (fun bb a bt => ((minmax aiColor n bb a bt false).1.1, (minmax aiColor n bb a bt false).2))
            (List.mergeSort (getAllLegalMoves b.grid (plyColor aiColor true))
              (fun m1 m2 => decide (scoreMove b.grid m2 ≤ scoreMove b.grid m1)))
            b ⊥ (List.mergeSort (getAllLegalMoves b.grid (plyColor aiColor true))
              (fun m1 m2 => decide (scoreMove b.grid m2 ≤ scoreMove b.grid m1))).headI
            ⊥ ⊤).1.2 = bm := Option.some.inj (hmove.symm.trans hbm)
        have hmoves : ∀ m ∈ List.mergeSort (getAllLegalMoves b.grid (plyColor aiColor true))
            (fun m1 m2 => decide (scoreMove b.grid m2 ≤ scoreMove b.grid m1)),
            ∃ p, gget b.grid m.1.1 m.1.2 = some p ∧
              ∀ a : Score, a < ⊤ →
                KM ((fun bb a bt => ((minmax aiColor n bb a bt false).1.1,
                    (minmax aiColor n bb a bt false).2))
                  { b with grid := simGrid b.grid p m.1 m.2 } a ⊤).1
                  ((fun m => fullMinimax aiColor n (applyB b m) false) m) a ⊤ := by
          intro m hm
          have hm2 := List.mem_mergeSort.mp hm
          obtain ⟨p, hq, _, _, _⟩ := mem_getAllLegalMoves hm2
          refine ⟨p, hq, fun a ha => ?_⟩
          have hb1w : WFGrid (simGrid b.grid p m.1 m.2) := by
            unfold simGrid
            exact WFGrid_gset (WFGrid_gset hwf _ _ _) _ _ _
          have hb1c : posConsistentB (simGrid b.grid p m.1 m.2) = true :=
            posConsistentB_simGrid hwf hpc p m.1 m.2
          dsimp only
          rw [applyB_eq hq]
          exact minmax_km aiColor n { b with grid := simGrid b.grid p m.1 m.2 } hb1w hb1c
            a ⊤ ha false
        have hattain := abLoopMax_attain
          (fun bb a bt => ((minmax aiColor n bb a bt false).1.1, (minmax aiColor n bb a bt false).2))
          (fun m => fullMinimax aiColor n (applyB b m) false) b hwf hpc
          (fun bb a bt h1 h2 => minmax_board aiColor n bb a bt false h1 h2)
          (List.mergeSort (getAllLegalMoves b.grid (plyColor aiColor true))
            (fun m1 m2 => decide (scoreMove b.grid m2 ≤ scoreMove b.grid m1))) hmoves
          ⊥ (List.mergeSort (getAllLegalMoves b.grid (plyColor aiColor true))
            (fun m1 m2 => decide (scoreMove b.grid m2 ≤ scoreMove b.grid m1))).headI
          bot_lt_top
        have hne : List.mergeSort (getAllLegalMoves b.grid (plyColor aiColor true))
            (fun m1 m2 => decide (scoreMove b.grid m2 ≤ scoreMove b.grid m1)) ≠ [] := by
          intro h0
          apply hlm
          have hperm := List.mergeSort_perm (getAllLegalMoves b.grid (plyColor aiColor true))
            (fun m1 m2 => decide (scoreMove b.grid m2 ≤ scoreMove b.grid m1))
          rw [h0] at hperm
          exact hperm.symm.eq_nil
        rcases hattain with h | ⟨h1, h2, h3⟩
        · rw [hbm2] at h
          rw [hv]
          exact h
        · rw [hbm2] at h2
          rw [hv, h1, h2]
          have hmem : (List.mergeSort (getAllLegalMoves b.grid (plyColor aiColor true))
              (fun m1 m2 => decide (scoreMove b.grid m2 ≤ scoreMove b.grid m1))).headI ∈
              List.mergeSort (getAllLegalMoves b.grid (plyColor aiColor true))
              (fun m1 m2 => decide (scoreMove b.grid m2 ≤ scoreMove b.grid m1)) := by
            cases hh : List.mergeSort (getAllLegalMoves b.grid (plyColor aiColor true))
                (fun m1 m2 => decide (scoreMove b.grid m2 ≤ scoreMove b.grid m1)) with
            | nil => exact absurd hh hne
            | cons a t =>
              exact List.mem_cons_self a t
          exact le_bot_iff.mp (h3 _ hmem)
    | false =>
      by_cases hlm : getAllLegalMoves b.grid (plyColor aiColor false) = []
      · have hmove : (minmax aiColor (n + 1) b ⊥ ⊤ false).1.2 = none := by
          rw [minmax, getAllLegalMovesT_eq]
          dsimp only
          rw [if_pos hlm]
          by_cases hchk : isColorInCheck b.grid (plyColor aiColor false) = true
          · rw [if_pos hchk]
          · rw [if_neg hchk]
        rw [hmove] at hbm
        cases hbm
      · have hmove : (minmax aiColor (n + 1) b ⊥ ⊤ false).1.2 = some ((abLoopMin
            (fun bb a bt => ((minmax aiColor n bb a bt true).1.1, (minmax aiColor n bb a bt true).2))
            (List.mergeSort (getAllLegalMoves b.grid (plyColor aiColor false))
              (fun m1 m2 => decide (scoreMove b.grid m2 ≤ scoreMove b.grid m1)))
            b ⊤ (List.mergeSort (getAllLegalMoves b.grid (plyColor aiColor false))
              (fun m1 m2 => decide (scoreMove b.grid m2 ≤ scoreMove b.grid m1))).headI
            ⊥ ⊤).1.2) := by
          rw [minmax, getAllLegalMovesT_eq]
          dsimp only
          rw [if_neg hlm]
          try simp only [reduceIte]
          try rfl
        have hv : (minmax aiColor (n + 1) b ⊥ ⊤ false).1.1 = (abLoopMin
            (fun bb a bt => ((minmax aiColor n bb a bt true).1.1, (minmax aiColor n bb a bt true).2))
            (List.mergeSort (getAllLegalMoves b.grid (plyColor aiColor false))
              (fun m1 m2 => decide (scoreMove b.grid m2 ≤ scoreMove b.grid m1)))
            b ⊤ (List.mergeSort (getAllLegalMoves b.grid (plyColor aiColor false))
              (fun m1 m2 => decide (scoreMove b.grid m2 ≤ scoreMove b.grid m1))).headI
            ⊥ ⊤).1.1 := by
          rw [minmax, getAllLegalMovesT_eq]
          dsimp only
          rw [if_neg hlm]
          try simp only [reduceIte]
          try rfl
        have hbm2 : (abLoopMin
            (fun bb a bt => ((minmax aiColor n bb a bt true).1.1, (minmax aiColor n bb a bt true).2))
            (List.mergeSort (getAllLegalMoves b.grid (plyColor aiColor false))
              (fun m1 m2 => decide (scoreMove b.grid m2 ≤ scoreMove b.grid m1)))
            b ⊤ (List.mergeSort (getAllLegalMoves b.grid (plyColor aiColor false))
              (fun m1 m2 => decide (scoreMove b.grid m2 ≤ scoreMove b.grid m1))).headI
            ⊥ ⊤).1.2 = bm := Option.some.inj (hmove.symm.trans hbm)
        have hmoves : ∀ m ∈ List.mergeSort (getAllLegalMoves b.grid (plyColor aiColor false))
            (fun m1 m2 => decide (scoreMove b.grid m2 ≤ scoreMove b.grid m1)),
            ∃ p, gget b.grid m.1.1 m.1.2 = some p ∧
              ∀ bt : Score, (⊥ : Score) < bt →
                KM ((fun bb a bt => ((minmax aiColor n bb a bt true).1.1,
                    (minmax aiColor n bb a bt true).2))
                  { b with grid := simGrid b.grid p m.1 m.2 } ⊥ bt).1
                  ((fun m => fullMinimax aiColor n (applyB b m) true) m) ⊥ bt := by
          intro m hm
          have hm2 := List.mem_mergeSort.mp hm
          obtain ⟨p, hq, _, _, _⟩ := mem_getAllLegalMoves hm2
          refine ⟨p, hq, fun bt hb => ?_⟩
          have hb1w : WFGrid (simGrid b.grid p m.1 m.2) := by
            unfold simGrid
            exact WFGrid_gset (WFGrid_gset hwf _ _ _) _ _ _
          have hb1c : posConsistentB (simGrid b.grid p m.1 m.2) = true :=
            posConsistentB_simGrid hwf hpc p m.1 m.2
          dsimp only
          rw [applyB_eq hq]
          exact minmax_km aiColor n { b with grid := simGrid b.grid p m.1 m.2 } hb1w hb1c
            ⊥ bt hb true
        have hattain := abLoopMin_attain
          (fun bb a bt => ((minmax aiColor n bb a bt true).1.1, (minmax aiColor n bb a bt true).2))
          (fun m => fullMinimax aiColor n (applyB b m) true) b hwf hpc
          (fun bb a bt h1 h2 => minmax_board aiColor n bb a bt true h1 h2)
          (List.mergeSort (getAllLegalMoves b.grid (plyColor aiColor false))
            (fun m1 m2 => decide (scoreMove b.grid m2 ≤ scoreMove b.grid m1))) hmoves
          ⊤ (List.mergeSort (getAllLegalMoves b.grid (plyColor aiColor false))
            (fun m1 m2 => decide (scoreMove b.grid m2 ≤ scoreMove b.grid m1))).headI
          bot_lt_top
        have hne : List.mergeSort (getAllLegalMoves b.grid (plyColor aiColor false))
            (fun m1 m2 => decide (scoreMove b.grid m2 ≤ scoreMove b.grid m1)) ≠ [] := by
          intro h0
          apply hlm
          have hperm := List.mergeSort_perm (getAllLegalMoves b.grid (plyColor aiColor false))
            (fun m1 m2 => decide (scoreMove b.grid m2 ≤ scoreMove b.grid m1))
          rw [h0] at hperm
          exact hperm.symm.eq_nil
        rcases hattain with h | ⟨h1, h2, h3⟩
        · rw [hbm2] at h
          rw [hv]
          exact h
        · rw [hbm2] at h2
          rw [hv, h1, h2]
          have hmem : (List.mergeSort (getAllLegalMoves b.grid (plyColor aiColor false))
              (fun m1 m2 => decide (scoreMove b.grid m2 ≤ scoreMove b.grid m1))).headI ∈
              List.mergeSort (getAllLegalMoves b.grid (plyColor aiColor false))
              (fun m1 m2 => decide (scoreMove b.grid m2 ≤ scoreMove b.grid m1)) := by
            cases hh : List.mergeSort (getAllLegalMoves b.grid (plyColor aiColor false))
                (fun m1 m2 => decide (scoreMove b.grid m2 ≤ scoreMove b.grid m1)) with
            | nil => exact absurd hh hne
            | cons a t =>
              exact List.mem_cons_self a t
          exact top_le_iff.mp (h3 _ hmem)

/-- A position-inconsistent board refuting the unconditional C1 claim:
a white pawn stored in slot a1 whose position field says c7, a white
pawn e2, black pawns e4 and h2. -/
def c1xGrid : Grid :=
  gset (gset (gset (gset (List.replicate 8 (List.replicate 8 none))
    0 0 (some ⟨.pawn, .white, (2, 6)⟩))
    4 1 (some ⟨.pawn, .white, (4, 1)⟩))
    4 3 (some ⟨.pawn, .black, (4, 3)⟩))
    7 1 (some ⟨.pawn, .black, (7, 1)⟩)

/-- The board carrying `c1xGrid`. -/
def c1xBoard : Board := { grid := c1xGrid, moveHistory := [], position_history := [] }

/-- `c1xBoard` after the search applies the stored pawn's move c7–c8. -/
def c1xA : Board :=
  { c1xBoard with grid := simGrid c1xBoard.grid ⟨.pawn, .white, (2, 6)⟩ (0, 0) (2, 7) }

/-- `c1xA` after black's reply e4–e3. -/
def c1xAc1 : Board :=
  { c1xA with grid := simGrid c1xA.grid ⟨.pawn, .black, (4, 3)⟩ (4, 3) (4, 2) }

/-- `c1xA` after black's reply h2–h1. -/
def c1xAc2 : Board :=
  { c1xA with grid := simGrid c1xA.grid ⟨.pawn, .black, (7, 1)⟩ (7, 1) (7, 0) }

/-- The root board after the search's revert of the first move: the
stored pawn's position field has been overwritten with its slot a1. -/
def c1xR : Board :=
  { c1xA with grid := revertGrid c1xA.grid ⟨.pawn, .white, (0, 0)⟩ (0, 0) (2, 7) none }

/-- The clobbered root board after the second root move e2–e3. -/
def c1xB : Board :=
  { c1xR with grid := simGrid c1xR.grid ⟨.pawn, .white, (4, 1)⟩ (4, 1) (4, 2) }

/-- `c1xB` after black's reply h2–h1. -/
def c1xBc : Board :=
  { c1xB with grid := simGrid c1xB.grid ⟨.pawn, .black, (7, 1)⟩ (7, 1) (7, 0) }

set_option maxRecDepth 100000 in
/-- After e4–e3 white has no moves: the depth-1 search scores the
stalemate 0. -/
theorem c1x_LA1 : minmax .white 1 c1xAc1 ⊥ ⊤ true = ((ofInt 0, none), c1xAc1) := rfl

set_option maxRecDepth 100000 in
/-- After h2–h1 white's only move is e2–e3; its leaf evaluates to −25. -/
theorem c1x_LA2 :
    minmax .white 1 c1xAc2 ⊥ (ofInt 0) true = ((ofInt (-25), some ((4, 1), (4, 2))), c1xAc2) := by
  rw [show (1 : Nat) = 0 + 1 from rfl, minmax, getAllLegalMovesT_eq]
  dsimp only
  rw [show getAllLegalMoves c1xAc2.grid (plyColor .white true) = [((4, 1), (4, 2))] from rfl]
  rw [List.mergeSort_singleton]
  rfl

set_option maxRecDepth 100000 in
/-- In the clobbered subtree after h2–h1, white's only move is the
stored pawn's a1–a2 (its position field now names its slot); the leaf
evaluates to −20. -/
theorem c1x_LB1 :
    minmax .white 1 c1xBc (ofInt (-25)) ⊤ true =
      ((ofInt (-20), some ((0, 0), (0, 1))), c1xBc) := by
  rw [show (1 : Nat) = 0 + 1 from rfl, minmax, getAllLegalMovesT_eq]
  dsimp only
  rw [show getAllLegalMoves c1xBc.grid (plyColor .white true) = [((0, 0), (0, 1))] from rfl]
  rw [List.mergeSort_singleton]
  rfl
